import Mathlib

/-!
Verification of the MetaSPN activity data lake (metaspn-core).

This file shallowly embeds the Python data-lake subsystem:
the record codec (`metaspn/repo/reader.py`, `metaspn/core/profile.py`),
the atomic store primitive (`metaspn/repo/writer.py`),
the manifest index (`metaspn/repo/manifest.py`),
the enhancement store (`metaspn/repo/enhancement_store.py`),
and the activity loader (`metaspn/repo/loader.py`).

Python values read from JSON are modelled by the inductive `Json`;
Python exceptions are modelled explicitly by `PyErr`, and every function
that can raise returns `Except PyErr _`.  JSON decoding itself (the
stdlib `json.loads`) is modelled at the line level by `RawLine`:
a line is blank, undecodable, or decodes to a `Json` value.
-/

namespace MetaSPN

/-- JSON values as produced by Python's `json.loads`.
Numbers are modelled as rationals (no claim depends on float rounding);
objects keep insertion order, like Python dicts. -/
inductive Json where
  | null : Json
  | bool (b : Bool) : Json
  | num (q : ℚ) : Json
  | str (s : String) : Json
  | arr (xs : List Json) : Json
  | obj (kvs : List (String × Json)) : Json
  deriving Repr

mutual

/-- Structural (= Python `==` on JSON-shaped data) equality test. -/
def Json.beq : Json → Json → Bool
  | .null, .null => true
  | .bool a, .bool b => a == b
  | .num a, .num b => a == b
  | .str a, .str b => a == b
  | .arr xs, .arr ys => Json.beqList xs ys
  | .obj a, .obj b => Json.beqKVs a b
  | _, _ => false

def Json.beqList : List Json → List Json → Bool
  | [], [] => true
  | a :: as, b :: bs => Json.beq a b && Json.beqList as bs
  | _, _ => false

def Json.beqKVs : List (String × Json) → List (String × Json) → Bool
  | [], [] => true
  | (k, v) :: as, (k2, v2) :: bs => k == k2 && Json.beq v v2 && Json.beqKVs as bs
  | _, _ => false

end

/-- Member-wise induction principle for `Json` (the nested lists are
traversed through membership). -/
theorem Json.ind (motive : Json → Prop)
    (hnull : motive .null) (hbool : ∀ b, motive (.bool b))
    (hnum : ∀ q, motive (.num q)) (hstr : ∀ s, motive (.str s))
    (harr : ∀ xs, (∀ x ∈ xs, motive x) → motive (.arr xs))
    (hobj : ∀ kvs, (∀ kv ∈ kvs, motive (Prod.snd kv)) → motive (.obj kvs)) :
    ∀ j, motive j := fun j =>
  match j with
  | .null => hnull
  | .bool b => hbool b
  | .num q => hnum q
  | .str s => hstr s
  | .arr xs => harr xs (fun x hx =>
      have : sizeOf x < 1 + sizeOf xs := by
        have := List.sizeOf_lt_of_mem hx
        omega
      Json.ind motive hnull hbool hnum hstr harr hobj x)
  | .obj kvs => hobj kvs (fun kv hkv =>
      have : sizeOf kv.2 < 1 + sizeOf kvs := by
        have h1 := List.sizeOf_lt_of_mem hkv
        have h2 : sizeOf kv.2 ≤ sizeOf kv := by
          cases kv with
          | mk k v => simp only [Prod.mk.sizeOf_spec]; omega
        omega
      Json.ind motive hnull hbool hnum hstr harr hobj kv.2)
termination_by j => sizeOf j

theorem Json.beq_iff : ∀ a b : Json, Json.beq a b = true ↔ a = b := by
  intro a
  induction a using Json.ind with
  | hnull => intro b; cases b <;> simp [Json.beq]
  | hbool x => intro b; cases b <;> simp [Json.beq]
  | hnum x => intro b; cases b <;> simp [Json.beq]
  | hstr s => intro b; cases b <;> simp [Json.beq]
  | harr xs ih =>
    intro b
    cases b with
    | arr ys =>
      simp only [Json.beq, Json.arr.injEq]
      induction xs generalizing ys with
      | nil => cases ys <;> simp [Json.beqList]
      | cons a as ih2 =>
        cases ys with
        | nil => simp [Json.beqList]
        | cons c cs =>
          have ha := ih a (by simp)
          have ihs := ih2 (fun x hx => ih x (by simp [hx])) cs
          simp [Json.beqList, Bool.and_eq_true, ha, ihs]
    | null => simp [Json.beq]
    | bool x => simp [Json.beq]
    | num x => simp [Json.beq]
    | str s => simp [Json.beq]
    | obj kvs => simp [Json.beq]
  | hobj kvs ih =>
    intro b
    cases b with
    | obj ys =>
      simp only [Json.beq, Json.obj.injEq]
      induction kvs generalizing ys with
      | nil => cases ys <;> simp [Json.beqKVs]
      | cons a as ih2 =>
        cases ys with
        | nil => simp [Json.beqKVs]
        | cons c cs =>
          obtain ⟨k, v⟩ := a
          obtain ⟨k2, v2⟩ := c
          have ha := ih (k, v) (by simp)
          have ihs := ih2 (fun x hx => ih x (by simp [hx])) cs
          simp only [Json.beqKVs, Bool.and_eq_true, beq_iff_eq, ha, ihs, List.cons.injEq,
            Prod.mk.injEq]
    | null => simp [Json.beq]
    | bool x => simp [Json.beq]
    | num x => simp [Json.beq]
    | str s => simp [Json.beq]
    | arr xs => simp [Json.beq]

instance : DecidableEq Json := fun a b => decidable_of_iff _ (Json.beq_iff a b)

/-- Python exception classes that appear in the repository's `except` clauses. -/
inductive PyErr where
  | typeError
  | keyError
  | valueError
  | jsonDecodeError
  | attributeError
  | osError
  deriving DecidableEq, Repr

abbrev Py (α : Type) := Except PyErr α

instance {ε α : Type} [DecidableEq ε] [DecidableEq α] : DecidableEq (Except ε α) :=
  fun x y =>
    match x, y with
    | .ok a, .ok b =>
      if h : a = b then isTrue (by rw [h]) else isFalse (by simp [h])
    | .error a, .error b =>
      if h : a = b then isTrue (by rw [h]) else isFalse (by simp [h])
    | .ok _, .error _ => isFalse (by simp)
    | .error _, .ok _ => isFalse (by simp)

/-- Python truthiness for JSON-shaped values (`bool(x)`). -/
def Json.truthy : Json → Bool
  | .null => false
  | .bool b => b
  | .num q => q ≠ 0
  | .str s => s ≠ ""
  | .arr xs => !xs.isEmpty
  | .obj kvs => !kvs.isEmpty

/-- Association-list lookup, first match — Python `dict` key lookup. -/
def alistGet (kvs : List (String × Json)) (k : String) : Option Json :=
  (kvs.find? (fun kv => kv.1 = k)).map (·.2)

/-- `data[k]` on a Python value: dicts index by key (KeyError when absent);
strings, lists, and everything else raise TypeError for a string index. -/
def Json.index (j : Json) (k : String) : Py Json :=
  match j with
  | .obj kvs =>
    match alistGet kvs k with
    | some v => .ok v
    | none => .error .keyError
  | _ => .error .typeError

/-- `data.get(k, default)` — only dicts have `.get`; anything else raises
AttributeError. Missing key yields the default. -/
def Json.getD (j : Json) (k : String) (default : Json) : Py Json :=
  match j with
  | .obj kvs =>
    match alistGet kvs k with
    | some v => .ok v
    | none => .ok default
  | _ => .error .attributeError

/-- `data.get(k)` (default `None`). -/
def Json.get (j : Json) (k : String) : Py Json :=
  j.getD k .null

/-- Python `k in data`: key membership for dicts, substring test for
strings, element membership for lists; TypeError otherwise. -/
def Json.contains (j : Json) (k : String) : Py Bool :=
  match j with
  | .obj kvs => .ok (kvs.any (fun kv => kv.1 = k))
  | .str s => .ok (decide ((s.splitOn k).length > 1))
  | .arr xs => .ok (xs.contains (.str k))
  | _ => .error .typeError

/-!
### Timestamps

The repository stores timestamps as `datetime.isoformat()` strings and reads
them back with `datetime.fromisoformat`.  We model `datetime` by its broken-out
fields (an optional UTC offset in whole minutes stands for `tzinfo`), implement
`isoformat` exactly in the shape CPython emits, and implement a parser for
that shape.  `fromisoformat` also accepts some strings no `isoformat` call
produces and validates calendar ranges; no claim depends on its behaviour on
such strings, so the model parser does not re-validate ranges.
-/

structure DateTime where
  year : Nat
  month : Nat
  day : Nat
  hour : Nat
  minute : Nat
  second : Nat
  microsecond : Nat
  tz : Option Int
  deriving DecidableEq, Repr

/-- Field bounds enforced by Python's `datetime` constructor (day upper bound
relaxed to 31; the exact calendar bound is irrelevant to the claims). -/
def DateTime.valid (t : DateTime) : Prop :=
  1 ≤ t.year ∧ t.year ≤ 9999 ∧ 1 ≤ t.month ∧ t.month ≤ 12 ∧ 1 ≤ t.day ∧ t.day ≤ 31 ∧
    t.hour ≤ 23 ∧ t.minute ≤ 59 ∧ t.second ≤ 59 ∧ t.microsecond ≤ 999999 ∧
    ∀ off ∈ t.tz, -1439 ≤ off ∧ off ≤ 1439

instance (t : DateTime) : Decidable t.valid := by
  unfold DateTime.valid
  infer_instance

def digitChar (n : Nat) : Char :=
  match n % 10 with
  | 0 => '0' | 1 => '1' | 2 => '2' | 3 => '3' | 4 => '4'
  | 5 => '5' | 6 => '6' | 7 => '7' | 8 => '8' | _ => '9'

def pad2 (n : Nat) : List Char := [digitChar (n / 10), digitChar n]

def pad4 (n : Nat) : List Char :=
  [digitChar (n / 1000), digitChar (n / 100), digitChar (n / 10), digitChar n]

def pad6 (n : Nat) : List Char :=
  [digitChar (n / 100000), digitChar (n / 10000), digitChar (n / 1000),
    digitChar (n / 100), digitChar (n / 10), digitChar n]

/-- `.%06d` microsecond fragment: omitted when the microsecond is 0. -/
def fracChars (us : Nat) : List Char :=
  if us = 0 then [] else '.' :: pad6 us

/-- `±HH:MM` offset fragment: omitted for a naive datetime. -/
def tzChars : Option Int → List Char
  | none => []
  | some off =>
    (if off < 0 then '-' else '+') :: (pad2 (off.natAbs / 60) ++ ':' :: pad2 (off.natAbs % 60))

def isoChars (t : DateTime) : List Char :=
  pad4 t.year ++ '-' :: (pad2 t.month ++ '-' :: (pad2 t.day ++ 'T' ::
    (pad2 t.hour ++ ':' :: (pad2 t.minute ++ ':' ::
      (pad2 t.second ++ (fracChars t.microsecond ++ tzChars t.tz))))))

/-- `datetime.isoformat()`. -/
def DateTime.isoformat (t : DateTime) : String := ⟨isoChars t⟩

def digitVal (c : Char) : Option Nat :=
  if 48 ≤ c.toNat ∧ c.toNat ≤ 57 then some (c.toNat - 48) else none

def read2 : List Char → Option (Nat × List Char)
  | a :: b :: rest =>
    (digitVal a).bind fun x => (digitVal b).map fun y => (x * 10 + y, rest)
  | _ => none

def read4 : List Char → Option (Nat × List Char)
  | a :: b :: c :: d :: rest =>
    (digitVal a).bind fun x => (digitVal b).bind fun y =>
      (digitVal c).bind fun z => (digitVal d).map fun w =>
        (x * 1000 + y * 100 + z * 10 + w, rest)
  | _ => none

def read6 : List Char → Option (Nat × List Char)
  | a :: b :: c :: d :: e :: f :: rest =>
    (digitVal a).bind fun x => (digitVal b).bind fun y =>
      (digitVal c).bind fun z => (digitVal d).bind fun w =>
        (digitVal e).bind fun v => (digitVal f).map fun u =>
          (x * 100000 + y * 10000 + z * 1000 + w * 100 + v * 10 + u, rest)
  | _ => none

def expectChar (c : Char) : List Char → Option (List Char)
  | x :: rest => if x = c then some rest else none
  | [] => none

def parseFrac : List Char → Option (Nat × List Char)
  | '.' :: rest => read6 rest
  | l => some (0, l)

def parseTz : List Char → Option (Option Int × List Char)
  | '+' :: rest =>
    (read2 rest).bind fun (hh, r) => (expectChar ':' r).bind fun r =>
      (read2 r).map fun (mm, r) => (some ((hh * 60 + mm : Nat) : Int), r)
  | '-' :: rest =>
    (read2 rest).bind fun (hh, r) => (expectChar ':' r).bind fun r =>
      (read2 r).map fun (mm, r) => (some (-((hh * 60 + mm : Nat) : Int)), r)
  | l => some (none, l)

def parseIso (l : List Char) : Option DateTime :=
  (read4 l).bind fun (y, l) =>
  (expectChar '-' l).bind fun l =>
  (read2 l).bind fun (mo, l) =>
  (expectChar '-' l).bind fun l =>
  (read2 l).bind fun (d, l) =>
  (expectChar 'T' l).bind fun l =>
  (read2 l).bind fun (h, l) =>
  (expectChar ':' l).bind fun l =>
  (read2 l).bind fun (mi, l) =>
  (expectChar ':' l).bind fun l =>
  (read2 l).bind fun (s, l) =>
  (parseFrac l).bind fun (us, l) =>
  (parseTz l).bind fun (tz, l) =>
  if l = [] then some ⟨y, mo, d, h, mi, s, us, tz⟩ else none

/-- `datetime.fromisoformat(x)`: ValueError on an unparseable string,
TypeError on a non-string argument. -/
def pyFromIso (j : Json) : Py DateTime :=
  match j with
  | .str s =>
    match parseIso s.data with
    | some t => .ok t
    | none => .error .valueError
  | _ => .error .typeError

theorem digitVal_digitChar (n : Nat) : digitVal (digitChar n) = some (n % 10) := by
  have h : n % 10 < 10 := Nat.mod_lt _ (by norm_num)
  unfold digitChar
  set m := n % 10 with hm
  interval_cases m <;> simp_all [digitVal]

theorem read2_pad2 (n : Nat) (hn : n ≤ 99) (rest : List Char) :
    read2 (pad2 n ++ rest) = some (n, rest) := by
  simp only [pad2, List.cons_append, List.nil_append, read2, digitVal_digitChar,
    Option.some_bind, Option.map_some', Option.some.injEq, Prod.mk.injEq, and_true]
  omega

theorem read4_pad4 (n : Nat) (hn : n ≤ 9999) (rest : List Char) :
    read4 (pad4 n ++ rest) = some (n, rest) := by
  simp only [pad4, List.cons_append, List.nil_append, read4, digitVal_digitChar,
    Option.some_bind, Option.map_some', Option.some.injEq, Prod.mk.injEq, and_true]
  omega

theorem read6_pad6 (n : Nat) (hn : n ≤ 999999) (rest : List Char) :
    read6 (pad6 n ++ rest) = some (n, rest) := by
  simp only [pad6, List.cons_append, List.nil_append, read6, digitVal_digitChar,
    Option.some_bind, Option.map_some', Option.some.injEq, Prod.mk.injEq, and_true]
  omega

theorem expectChar_cons_self (c : Char) (l : List Char) :
    expectChar c (c :: l) = some l := by
  simp [expectChar]

theorem parseFrac_fracChars (us : Nat) (hus : us ≤ 999999) (tz : Option Int) :
    parseFrac (fracChars us ++ tzChars tz) = some (us, tzChars tz) := by
  unfold fracChars
  by_cases h : us = 0
  · subst h
    cases tz with
    | none => simp [parseFrac, tzChars]
    | some off =>
      by_cases hoff : off < 0 <;>
        simp [parseFrac, tzChars, hoff]
  · simp only [h, if_false, List.cons_append, parseFrac]
    exact read6_pad6 us hus _

theorem parseTz_tzChars (tz : Option Int) (htz : ∀ off ∈ tz, -1439 ≤ off ∧ off ≤ 1439) :
    parseTz (tzChars tz) = some (tz, []) := by
  cases tz with
  | none => simp [parseTz, tzChars]
  | some off =>
    have hb := htz off (by simp)
    have h60 : off.natAbs / 60 ≤ 99 := by omega
    have hm : off.natAbs % 60 ≤ 99 := by omega
    have hsplit : off.natAbs / 60 * 60 + off.natAbs % 60 = off.natAbs := by omega
    have hm2 : read2 (pad2 (off.natAbs % 60)) = some (off.natAbs % 60, []) := by
      have := read2_pad2 _ hm ([] : List Char)
      simpa using this
    by_cases hoff : off < 0
    · simp only [tzChars, hoff, if_true, parseTz, read2_pad2 _ h60, Option.some_bind,
        expectChar_cons_self, hm2, Option.map_some', Option.some.injEq,
        Prod.mk.injEq, and_true, hsplit]
      omega
    · simp only [tzChars, hoff, if_false, parseTz, read2_pad2 _ h60, Option.some_bind,
        expectChar_cons_self, hm2, Option.map_some', Option.some.injEq,
        Prod.mk.injEq, and_true, hsplit]
      omega

/-- Round trip: the model parser inverts `isoformat` on every valid datetime. -/
theorem parseIso_isoChars (t : DateTime) (ht : t.valid) :
    parseIso (isoChars t) = some t := by
  obtain ⟨h1, h2, h3, h4, h5, h6, h7, h8, h9, h10, h11⟩ := ht
  have e4 := read4_pad4 t.year (by omega)
  have emo := read2_pad2 t.month (by omega)
  have ed := read2_pad2 t.day (by omega)
  have eh := read2_pad2 t.hour (by omega)
  have emi := read2_pad2 t.minute (by omega)
  have es := read2_pad2 t.second (by omega)
  have ef := parseFrac_fracChars t.microsecond (by omega) t.tz
  have et := parseTz_tzChars t.tz h11
  simp only [parseIso, isoChars, e4, emo, ed, eh, emi, es, ef, et, expectChar_cons_self,
    Option.some_bind, if_true]

theorem pyFromIso_isoformat (t : DateTime) (ht : t.valid) :
    pyFromIso (.str t.isoformat) = .ok t := by
  simp [pyFromIso, DateTime.isoformat, parseIso_isoChars t ht]

/-!
### Activity and its codec (`metaspn/core/profile.py`)

Fields that Python leaves dynamically typed are modelled as `Json`
(`None` is `Json.null`); `timestamp` is always a `datetime` on every
construction path, so it is typed `DateTime`.  CPython's `hash` on strings is
salted per process (PYTHONHASHSEED), so the string-hash used by
`__post_init__` is a parameter `PyHash` of the model: one `PyHash` value
stands for one interpreter process.
-/

/-- One interpreter process's `hash` function on the hashed value. -/
abbrev PyHash := Json → Int

/-- `str(x)` as used inside f-strings.  Only the string case is exercised by
any proof; the composite cases are placeholders for CPython's repr. -/
def pyStr : Json → String
  | .str s => s
  | .null => "None"
  | .bool true => "True"
  | .bool false => "False"
  | .num q => toString q.num
  | .arr _ => "[...]"
  | .obj _ => "\x7b...\x7d"

/-- `s.replace(":", "-")`. -/
def replaceColons (s : String) : String :=
  ⟨s.data.map (fun c => if c = ':' then '-' else c)⟩

/-- `s.replace("Z", "+00:00")`. -/
def replaceZ (s : String) : String :=
  ⟨s.data.flatMap (fun c => if c = 'Z' then ['+', '0', '0', ':', '0', '0'] else [c])⟩

structure Activity where
  timestamp : DateTime
  platform : Json
  activity_type : Json
  title : Json
  content : Json
  url : Json
  duration_seconds : Json
  quality_score : Json
  game_signature : Json
  raw_data : Json
  activity_id : Json
  deriving DecidableEq, Repr

/-- `Activity.__post_init__`: generate the id from timestamp, platform and
`hash(self.title or '')` when no id was supplied. -/
def Activity.postInit (h : PyHash) (a : Activity) : Activity :=
  if a.activity_id = Json.null then
    let base := pyStr a.platform ++ "_" ++ a.timestamp.isoformat ++ "_"
      ++ toString (h (if a.title.truthy then a.title else .str ""))
    { a with activity_id := .str (replaceColons base) }
  else a

/-- `Activity.to_dict`. -/
def Activity.to_dict (a : Activity) : Json :=
  .obj [("timestamp", .str a.timestamp.isoformat),
        ("platform", a.platform),
        ("activity_type", a.activity_type),
        ("title", a.title),
        ("content", a.content),
        ("url", a.url),
        ("duration_seconds", a.duration_seconds),
        ("quality_score", a.quality_score),
        ("game_signature", a.game_signature),
        ("raw_data", a.raw_data),
        ("activity_id", a.activity_id)]

/-- `Activity.from_dict` (argument evaluation in Python's order; the
dataclass constructor then runs `__post_init__`). -/
def Activity.from_dict (h : PyHash) (data : Json) : Py Activity := do
  let tsj ← data.index "timestamp"
  let ts ← pyFromIso tsj
  let platform ← data.index "platform"
  let atype ← data.index "activity_type"
  let title ← data.get "title"
  let content ← data.get "content"
  let url ← data.get "url"
  let dur ← data.get "duration_seconds"
  let qs ← data.get "quality_score"
  let gs ← data.get "game_signature"
  let raw ← data.getD "raw_data" (.obj [])
  let aid ← data.get "activity_id"
  return Activity.postInit h ⟨ts, platform, atype, title, content, url, dur, qs, gs, raw, aid⟩

/-!
### Record codec (`RepoReader`, `metaspn/repo/reader.py`)
-/

/-- `fromisoformat(x.replace("Z", "+00:00"))` inside
`try: ... except (ValueError, AttributeError): return None`: a non-string
raises AttributeError at `.replace` (caught), a bad string ValueError
(caught), so the whole block yields an optional datetime. -/
def tryFromIsoZ (j : Json) : Option DateTime :=
  match j with
  | .str s => parseIso (replaceZ s).data
  | _ => none

/-- Python `a or b` with lazy right operand. -/
def pyOr (a : Json) (b : Py Json) : Py Json :=
  if a.truthy then .ok a else b

/-- `RepoReader._is_canonical_format`: `all(f in data for f in [...])`,
short-circuiting left to right. -/
def isCanonical (data : Json) : Py Bool := do
  let a ← data.contains "timestamp"
  if a then do
    let b ← data.contains "platform"
    if b then data.contains "activity_type"
    else return false
  else return false

/-- `RepoReader._parse_legacy_podcast_episode`. -/
def parseLegacyPodcastEpisode (h : PyHash) (data : Json) : Py (Option Activity) := do
  let episode ← data.getD "episode" (.obj [])
  let tsd ← data.get "timestamp"
  let ts_str ← pyOr tsd (episode.get "publish_date")
  if !ts_str.truthy then return none
  match tryFromIsoZ ts_str with
  | none => return none
  | some ts => do
    let title ← episode.get "title"
    let content ← episode.get "description"
    let url ← episode.get "episode_url"
    let dur ← episode.get "duration_seconds"
    let epid ← episode.get "episode_id"
    let guid ← episode.get "guid"
    let did ← data.get "id"
    return some (Activity.postInit h
      ⟨ts, .str "podcast", .str "create", title, content, url, dur, .null, .null,
        .obj [("episode_id", epid), ("guid", guid), ("id", did)], .null⟩)

/-- `RepoReader._parse_legacy_listening_event`. -/
def parseLegacyListeningEvent (h : PyHash) (data : Json) : Py (Option Activity) := do
  let episode ← data.getD "episode" (.obj [])
  let listening ← data.getD "listening" (.obj [])
  let podcast ← data.getD "podcast" (.obj [])
  let tsd ← data.get "timestamp"
  let ts_str ← pyOr tsd (listening.get "end_time")
  if !ts_str.truthy then return none
  match tryFromIsoZ ts_str with
  | none => return none
  | some ts => do
    let title ← episode.get "title"
    let url ← episode.get "episode_url"
    let durl ← listening.get "duration_seconds"
    let dur ← pyOr durl (episode.get "duration_seconds")
    let ptitle ← podcast.get "title"
    let showId ← podcast.get "show_id"
    let epid ← episode.get "episode_id"
    let comp ← listening.get "completion_percentage"
    let speed ← listening.get "playback_speed"
    let did ← data.get "id"
    return some (Activity.postInit h
      ⟨ts, .str "podcast", .str "consume", title, .null, url, dur, .null, .null,
        .obj [("podcast_title", ptitle), ("show_id", showId), ("episode_id", epid),
              ("completion_percentage", comp), ("playback_speed", speed), ("id", did)],
        .null⟩)

/-- `RepoReader._parse_legacy_blog_post`. -/
def parseLegacyBlogPost (h : PyHash) (data : Json) : Py (Option Activity) := do
  let post ← data.getD "post" (.obj [])
  let content_data ← data.getD "content" (.obj [])
  let tsd ← data.get "timestamp"
  let ts_str ← pyOr tsd (post.get "publish_date")
  if !ts_str.truthy then return none
  match tryFromIsoZ ts_str with
  | none => return none
  | some ts => do
    let plain ← content_data.get "plain_text"
    let content ← pyOr plain (content_data.get "excerpt")
    let title ← post.get "title"
    let url ← post.get "url"
    let slug ← post.get "slug"
    let wc ← post.get "word_count"
    let cats ← post.getD "categories" (.arr [])
    let did ← data.get "id"
    return some (Activity.postInit h
      ⟨ts, .str "blog", .str "create", title, content, url, .null, .null, .null,
        .obj [("slug", slug), ("word_count", wc), ("categories", cats), ("id", did)],
        .null⟩)

/-- `RepoReader._parse_legacy_reading_event`. -/
def parseLegacyReadingEvent (h : PyHash) (data : Json) : Py (Option Activity) := do
  let reading ← data.getD "reading" (.obj [])
  let post ← data.getD "post" (.obj [])
  let tsd ← data.get "timestamp"
  let ts_str ← pyOr tsd (reading.get "end_time")
  if !ts_str.truthy then return none
  match tryFromIsoZ ts_str with
  | none => return none
  | some ts => do
    let title ← post.get "title"
    let url ← post.get "url"
    let dur ← reading.get "duration_seconds"
    let comp ← reading.get "completion_percentage"
    let did ← data.get "id"
    return some (Activity.postInit h
      ⟨ts, .str "blog", .str "consume", title, .null, url, dur, .null, .null,
        .obj [("completion_percentage", comp), ("id", did)], .null⟩)

/-- `RepoReader._parse_legacy_tweet`. -/
def parseLegacyTweet (h : PyHash) (data : Json) : Py (Option Activity) := do
  let tweet ← data.getD "tweet" (.obj [])
  let tsd ← data.get "timestamp"
  let ts_str ← pyOr tsd (tweet.get "created_at")
  if !ts_str.truthy then return none
  match tryFromIsoZ ts_str with
  | none => return none
  | some ts => do
    let content ← tweet.getD "text" (.str "")
    let metrics ← data.getD "metrics" (.obj [])
    let analysis ← data.getD "analysis" (.obj [])
    let did ← data.get "id"
    let tid ← pyOr did (tweet.get "id")
    let username ← data.get "username"
    let author ← data.get "author_id"
    let ttype ← tweet.get "type"
    let likes ← metrics.getD "likes" (.num 0)
    let rts ← metrics.getD "retweets" (.num 0)
    let reps ← metrics.getD "replies" (.num 0)
    let url ← tweet.get "url"
    let gs ← analysis.get "game_signature"
    let did2 ← data.get "id"
    let tid2 ← pyOr did2 (tweet.get "id")
    return some (Activity.postInit h
      ⟨ts, .str "twitter", .str "create", .null, content, url, .null, .null, gs,
        .obj [("tweet_id", tid), ("username", username), ("author_id", author),
              ("tweet_type", ttype), ("likes", likes), ("retweets", rts),
              ("replies", reps)],
        .str ("twitter_" ++ pyStr tid2)⟩)

/-- `RepoReader._parse_legacy_activity`: the `if/elif` format dispatch. -/
def parseLegacy (h : PyHash) (data : Json) : Py (Option Activity) := do
  let tw ← data.contains "tweet"
  if tw then parseLegacyTweet h data
  else do
    let ep ← data.contains "episode"
    if ep then do
      let li ← data.contains "listening"
      if !li then parseLegacyPodcastEpisode h data
      else parseLegacyListeningEvent h data
    else do
      let li ← data.contains "listening"
      if li then parseLegacyListeningEvent h data
      else do
        let po ← data.contains "post"
        if po then parseLegacyBlogPost h data
        else do
          let re ← data.contains "reading"
          if re then parseLegacyReadingEvent h data
          else do
            let st ← data.contains "source_type"
            if st then do
              let v ← data.get "source_type"
              if v = Json.str "blog" then parseLegacyReadingEvent h data
              else return none
            else return none

/-- `RepoReader._parse_activity`: canonical first (its KeyError/ValueError
are swallowed to `None`), legacy dispatch otherwise. -/
def parseActivity (h : PyHash) (data : Json) : Py (Option Activity) := do
  let canon ← isCanonical data
  if canon then
    match Activity.from_dict h data with
    | .ok a => return (some a)
    | .error .keyError => return none
    | .error .valueError => return none
    | .error e => .error e
  else parseLegacy h data

/-- A physical line of a `.jsonl` file (or the whole decoded content of a
`.json` file): blank, undecodable JSON, or a decoded value. -/
inductive RawLine where
  | blank : RawLine
  | invalid : RawLine
  | val (j : Json) : RawLine
  deriving DecidableEq, Repr

/-- An event-log file: a `.jsonl` file is a list of lines, a `.json` file
decodes as one value (possibly a list). -/
inductive SrcFile where
  | jsonl (lines : List RawLine) : SrcFile
  | json (content : RawLine) : SrcFile
  deriving DecidableEq, Repr

/-- Exceptions caught by the per-line handler in `_load_file`
(`json.JSONDecodeError, KeyError, ValueError`). -/
def caughtLine (e : PyErr) : Bool :=
  e = .jsonDecodeError || e = .keyError || e = .valueError

/-- Exceptions caught by the per-file handler in `load_activities`
(`json.JSONDecodeError, KeyError, ValueError, OSError`). -/
def caughtFile (e : PyErr) : Bool :=
  e = .jsonDecodeError || e = .keyError || e = .valueError || e = .osError

def loadJsonlLines (h : PyHash) : List RawLine → Py (List Activity)
  | [] => .ok []
  | .blank :: rest => loadJsonlLines h rest
  | .invalid :: rest => loadJsonlLines h rest
  | .val j :: rest =>
    match parseActivity h j with
    | .ok (some a) => (loadJsonlLines h rest).map (a :: ·)
    | .ok none => loadJsonlLines h rest
    | .error e => if caughtLine e then loadJsonlLines h rest else .error e

def loadJsonItems (h : PyHash) : List Json → Py (List Activity)
  | [] => .ok []
  | j :: rest => do
    let oa ← parseActivity h j
    match oa with
    | some a => (loadJsonItems h rest).map (a :: ·)
    | none => loadJsonItems h rest

/-- `RepoReader._load_file`. -/
def loadFile (h : PyHash) : SrcFile → Py (List Activity)
  | .jsonl lines => loadJsonlLines h lines
  | .json .blank => .error .jsonDecodeError
  | .json .invalid => .error .jsonDecodeError
  | .json (.val (.arr items)) => loadJsonItems h items
  | .json (.val j) => do
    let oa ← parseActivity h j
    return (match oa with | some a => [a] | none => [])

def loadActivitiesNoSort (h : PyHash) : List SrcFile → Py (List Activity)
  | [] => .ok []
  | f :: rest =>
    match loadFile h f with
    | .ok as => (loadActivitiesNoSort h rest).map (as ++ ·)
    | .error e => if caughtFile e then loadActivitiesNoSort h rest else .error e

/-- Timestamp sort key: microseconds on a mixed-radix scale, minus the UTC
offset when aware (Python compares aware datetimes by instant; comparing
aware with naive raises there — the model orders them by the same key). -/
def dtKey (t : DateTime) : Int :=
  ((((((t.year * 13 + t.month) * 32 + t.day) * 24 + t.hour) * 60 + t.minute) * 60
      + t.second : Nat) : Int) * 1000000 + t.microsecond
    - (match t.tz with | none => 0 | some off => off * 60000000)

def tsLe (a b : Activity) : Prop := dtKey a.timestamp ≤ dtKey b.timestamp

instance : DecidableRel tsLe := fun a b => by unfold tsLe; infer_instance

/-- `activities.sort(key=lambda a: a.timestamp)` — a stable ascending sort. -/
def sortByTimestamp (as : List Activity) : List Activity :=
  as.insertionSort tsLe

/-- `RepoReader.load_activities`: per-file loads with the per-file catch,
then the final timestamp sort. -/
def RepoReader.load_activities (h : PyHash) (files : List SrcFile) : Py (List Activity) :=
  (loadActivitiesNoSort h files).map sortByTimestamp

/-!
### Claims C1 and C2
-/

/-- A fixed process hash (any value works for these evaluations). -/
def h0 : PyHash := fun _ => 0

/-- A well-formed canonical record. -/
def validRec : Json :=
  .obj [("timestamp", .str "2024-01-15T12:00:00"), ("platform", .str "twitter"),
        ("activity_type", .str "create"), ("activity_id", .str "t1")]

/-- C1: the spec says parsing never raises and one corrupt line cannot fail a
file (a file with N parseable and M malformed records yields exactly N
activities).  The code contradicts this: the per-line handler catches only
`JSONDecodeError, KeyError, ValueError`, so a line holding the valid JSON
non-object `5` makes `_is_canonical_format`'s `"timestamp" in data` raise an
uncaught TypeError.  The error escapes `_load_file` and
`load_activities` (whose per-file handler also omits TypeError): the file's
valid record is lost and the caller sees the exception. -/
theorem loadFile_raises_on_non_object_line :
    loadFile h0 (.jsonl [.val validRec, .val (.num 5)]) = .error .typeError ∧
      RepoReader.load_activities h0 [.jsonl [.val validRec, .val (.num 5)]]
        = .error .typeError := by
  constructor <;> rfl

/-- C2: `Activity.from_dict (Activity.to_dict a) = a` for every activity with
an in-range timestamp and a generated (non-`None`) id, in any process. -/
theorem activity_dict_roundtrip (h : PyHash) (a : Activity)
    (hts : a.timestamp.valid) (hid : a.activity_id ≠ Json.null) :
    Activity.from_dict h (Activity.to_dict a) = .ok a := by
  have hiso := pyFromIso_isoformat a.timestamp hts
  simp [Activity.from_dict, Activity.to_dict, Json.index, Json.get, Json.getD, alistGet,
    List.find?, hiso, Activity.postInit, hid, bind, Except.bind, pure, Except.pure]

/-- A concrete valid activity for the round-trip witness. -/
def activity0 : Activity :=
  ⟨⟨2024, 1, 15, 12, 0, 0, 0, none⟩, .str "twitter", .str "create", .str "hello",
    .null, .null, .null, .null, .null, .obj [("k", .num 3)], .str "t1"⟩

/-- Witness for C2 at `activity0`. -/
theorem activity_dict_roundtrip_witness :
    activity0.timestamp.valid ∧ activity0.activity_id ≠ Json.null ∧
      Activity.from_dict h0 (Activity.to_dict activity0) = .ok activity0 :=
  ⟨by decide, by decide, activity_dict_roundtrip h0 activity0 (by decide) (by decide)⟩

/-!
### Manifest index (`metaspn/repo/manifest.py`)

On-disk state is `IndexStore`: the master `manifest.json` plus the
`by_platform/` and `by_date/` shard files.  Python dicts are association
lists with insert-order preserved and in-place value update on re-assignment.
-/

/-- Python dict lookup (first, and only, binding of the key). -/
def alistFind {κ β : Type} [DecidableEq κ] (m : List (κ × β)) (k : κ) : Option β :=
  (m.find? (fun kv => kv.1 = k)).map (·.2)

/-- Python dict assignment `m[k] = v`: updates the value in place (keeping
the key's insertion position and the original key object); appends a fresh
binding otherwise. -/
def alistUpd {κ β : Type} [DecidableEq κ] : List (κ × β) → κ → β → List (κ × β)
  | [], k, v => [(k, v)]
  | kv :: rest, k, v =>
    if kv.1 = k then (kv.1, v) :: rest else kv :: alistUpd rest k v

/-- `defaultdict(int)` counter bump. -/
def bumpCount {κ : Type} [DecidableEq κ] (m : List (κ × Nat)) (k : κ) : List (κ × Nat) :=
  alistUpd m k ((alistFind m k).getD 0 + 1)

/-- `defaultdict(list)` append. -/
def appendEntry {κ β : Type} [DecidableEq κ] (m : List (κ × List β)) (k : κ) (v : β) :
    List (κ × List β) :=
  alistUpd m k ((alistFind m k).getD [] ++ [v])

/-- `ActivityIndex` (fields Python leaves dynamic are `Json`). -/
structure ActivityIndex where
  activity_id : Json
  source_type : String
  platform : Json
  activity_type : Json
  timestamp : String
  file_path : String
  line_number : Nat
  deriving DecidableEq, Repr

structure Manifest where
  version : String
  last_updated : Option String
  total_activities : Nat
  activities : List (Json × ActivityIndex)
  statsByPlatform : List (String × Nat)
  statsByYear : List (String × Nat)
  statsByType : List (Json × Nat)
  deriving DecidableEq, Repr

/-- `Manifest()` defaults. -/
def Manifest.empty : Manifest := ⟨"2.0", none, 0, [], [], [], []⟩

/-- The persisted index files: master manifest (if built), per-platform and
per-month shards (shard files persist until overwritten). -/
structure IndexStore where
  manifest : Option Manifest
  platformShards : List (String × List Json)
  dateShards : List (String × List Json)
  deriving DecidableEq, Repr

def IndexStore.empty : IndexStore := ⟨none, [], []⟩

/-- `ManifestManager.exists`. -/
def IndexStore.indexExists (st : IndexStore) : Bool := st.manifest.isSome

/-- `ManifestManager.load` (empty manifest when the file is absent). -/
def IndexStore.loadManifest (st : IndexStore) : Manifest := st.manifest.getD Manifest.empty

/-- An event-log file together with its path components below the
(absolute) repository root. -/
structure LogFile where
  parts : List String
  file : SrcFile
  deriving DecidableEq, Repr

/-- `ManifestManager._determine_source_type`: `"/sources/"` is a substring of
the absolute path iff some non-final component is `sources`. -/
def determineSourceType (parts : List String) : String :=
  if parts.dropLast.contains "sources" then "source" else "artifact"

/-- `ManifestManager._determine_platform`: the component after the first
non-final `sources`/`artifacts` component. -/
def determinePlatform : List String → String
  | p :: q :: rest =>
    if p = "sources" || p = "artifacts" then q else determinePlatform (q :: rest)
  | _ => "unknown"

def joinParts : List String → String
  | [] => ""
  | [p] => p
  | p :: rest => p ++ "/" ++ joinParts rest

/-- `%Y` / `%Y-%m` (zero-padded). -/
def yearStr (t : DateTime) : String := ⟨pad4 t.year⟩

def monthStr (t : DateTime) : String := ⟨pad4 t.year ++ '-' :: pad2 t.month⟩

structure BuildAcc where
  m : List (Json × ActivityIndex)
  byPlat : List (String × Nat)
  byYear : List (String × Nat)
  byMonth : List (String × List Json)
  byType : List (Json × Nat)
  deriving DecidableEq, Repr

def BuildAcc.empty : BuildAcc := ⟨[], [], [], [], []⟩

/-- Body of the build loop for one file's activities (`enumerate(activities, 1)`
supplies the stored line number; falsy ids are skipped). -/
def buildFold (srcType pf fp : String) : BuildAcc → Nat → List Activity → BuildAcc
  | acc, _, [] => acc
  | acc, ln, a :: as =>
    if !a.activity_id.truthy then buildFold srcType pf fp acc (ln + 1) as
    else
      let idx : ActivityIndex :=
        ⟨a.activity_id, srcType, .str pf, a.activity_type, a.timestamp.isoformat, fp, ln⟩
      let acc' : BuildAcc :=
        ⟨dictInsertIdx acc.m a.activity_id idx,
          bumpCount acc.byPlat pf,
          bumpCount acc.byYear (yearStr a.timestamp),
          appendEntry acc.byMonth (monthStr a.timestamp) a.activity_id,
          bumpCount acc.byType a.activity_type⟩
      buildFold srcType pf fp acc' (ln + 1) as
where dictInsertIdx (m : List (Json × ActivityIndex)) (k : Json) (v : ActivityIndex) :
    List (Json × ActivityIndex) := alistUpd m k v

def buildGo (h : PyHash) (acc : BuildAcc) : List LogFile → Py BuildAcc
  | [] => .ok acc
  | f :: rest => do
    let as ← loadFile h f.file
    buildGo h
      (buildFold (determineSourceType f.parts) (determinePlatform f.parts)
        (joinParts f.parts) acc 1 as) rest

/-- `_save_platform_indexes`: group master entries by `index.platform`
(shard file named `str(platform) + ".json"`). -/
def groupByPlatform (m : List (Json × ActivityIndex)) : List (String × List Json) :=
  m.foldl (fun acc kv => appendEntry acc (pyStr kv.2.platform) kv.1) []

/-- `ManifestManager.build` on the scan path (`force=True`, or no manifest
file yet): scan every activity file, persist the master manifest and
overwrite the touched shard files (untouched shard files persist). -/
def ManifestManager.build (h : PyHash) (files : List LogFile) (now : String)
    (prior : IndexStore) : Py IndexStore := do
  let acc ← buildGo h BuildAcc.empty files
  let m : Manifest :=
    ⟨"2.0", some now, acc.m.length, acc.m, acc.byPlat, acc.byYear, acc.byType⟩
  let ds := acc.byMonth.foldl (fun s kv => alistUpd s kv.1 kv.2) prior.dateShards
  let ps := (groupByPlatform acc.m).foldl (fun s kv => alistUpd s kv.1 kv.2)
    prior.platformShards
  return ⟨some m, ps, ds⟩

/-- One iteration of the `update_incremental` loop: skip falsy or
already-indexed ids, otherwise add a placeholder entry and count it. -/
def incrStep (p : Manifest × Nat) (a : Activity) : Manifest × Nat :=
  if !a.activity_id.truthy then p
  else if (alistFind p.1.activities a.activity_id).isSome then p
  else
    let stype := if a.activity_type = Json.str "create" then "artifact" else "source"
    let idx : ActivityIndex :=
      ⟨a.activity_id, stype, a.platform, a.activity_type, a.timestamp.isoformat, "", 0⟩
    ({ p.1 with activities := alistUpd p.1.activities a.activity_id idx }, p.2 + 1)

/-- `ManifestManager.update_incremental`: add unseen truthy ids with a
placeholder location, refresh total and timestamp; shard and stats files are
not touched. -/
def ManifestManager.update_incremental (st : IndexStore) (batch : List Activity)
    (now : String) : IndexStore × Nat :=
  let m0 := st.loadManifest
  let res := batch.foldl incrStep (m0, 0)
  if res.2 > 0 then
    let m2 : Manifest := { res.1 with total_activities := res.1.activities.length,
                                      last_updated := some now }
    ({ st with manifest := some m2 }, res.2)
  else (st, res.2)

/-- `ManifestManager.get_activities_by_platform`: prefer the shard file,
fall back to filtering the master map. -/
def getActivitiesByPlatform (st : IndexStore) (platform : String) : List Json :=
  match alistFind st.platformShards platform with
  | some ids => ids
  | none =>
    ((st.loadManifest).activities.filter
      (fun kv => kv.2.platform = Json.str platform)).map (·.1)

/-- `ManifestManager.get_activities_by_type`. -/
def getActivitiesByType (st : IndexStore) (t : String) : List Json :=
  ((st.loadManifest).activities.filter
    (fun kv => kv.2.activity_type = Json.str t)).map (·.1)

/-- One date-range test on a stored `index.timestamp` string
(`fromisoformat(ts.replace("Z", "+00:00"))`, tz stripped when the query
start is naive, then inclusive bound checks). -/
def tsInRange (tsStr : String) (sd ed : Option DateTime) : Py Bool :=
  match parseIso (replaceZ tsStr).data with
  | none => .error .valueError
  | some ts =>
    let ts := if ts.tz.isSome && (match sd with | some d => d.tz.isNone | none => false)
      then { ts with tz := none } else ts
    .ok (!(match sd with | some d => decide (dtKey ts < dtKey d) | none => false) &&
         !(match ed with | some d => decide (dtKey d < dtKey ts) | none => false))

/-- `ManifestManager.get_activities_by_date` (iterates the master map; a
stored timestamp that fails to parse raises). -/
def getActivitiesByDate (st : IndexStore) (sd ed : Option DateTime) : Py (List Json) :=
  go (st.loadManifest).activities
where go : List (Json × ActivityIndex) → Py (List Json)
  | [] => .ok []
  | kv :: rest => do
    let b ← tsInRange kv.2.timestamp sd ed
    let tl ← go rest
    return (if b then kv.1 :: tl else tl)

/-- `ManifestManager.get_activity_index`. -/
def getActivityIndex (st : IndexStore) (id : Json) : Option ActivityIndex :=
  alistFind (st.loadManifest).activities id

/-- `ManifestManager.query`: AND of the individual filters (Python
intersects `set`s; the model keeps master-map order — only membership is
meaningful). -/
def manifestQuery (st : IndexStore) (platform activity_type : Option String)
    (sd ed : Option DateTime) : Py (List Json) := do
  let all := (st.loadManifest).activities.map (·.1)
  let c1 := match platform with
    | some p => all.filter ((getActivitiesByPlatform st p).contains ·)
    | none => all
  let c2 := match activity_type with
    | some t => c1.filter ((getActivitiesByType st t).contains ·)
    | none => c1
  match sd, ed with
  | none, none => return c2
  | _, _ => do
    let dateIds ← getActivitiesByDate st sd ed
    return c2.filter (dateIds.contains ·)

/-!
### Activity loader (`metaspn/repo/loader.py`): full-scan query and count
-/

/-- The record filters of `_query_full_scan`. -/
def matchesFilters (platform activity_type : Option String) (sd ed : Option DateTime)
    (a : Activity) : Bool :=
  (match platform with | some p => a.platform = Json.str p | none => true) &&
  (match activity_type with | some t => a.activity_type = Json.str t | none => true) &&
  (match sd with | some d => !decide (dtKey a.timestamp < dtKey d) | none => true) &&
  (match ed with | some d => !decide (dtKey d < dtKey a.timestamp) | none => true)

/-- Yield matching activities of one loaded file under the running limit
(`if limit and count >= limit: break`); returns the taken items and the
remaining budget (`some 0` = the break fired). -/
def takeUpTo (pred : Activity → Bool) : Option Nat → List Activity →
    List Activity × Option Nat
  | rem, [] => ([], rem)
  | rem, a :: as =>
    if pred a then
      match rem with
      | some 1 => ([a], some 0)
      | some (n + 2) =>
        let r := takeUpTo pred (some (n + 1)) as
        (a :: r.1, r.2)
      | some 0 => ([], some 0)
      | none =>
        let r := takeUpTo pred none as
        (a :: r.1, r.2)
    else takeUpTo pred rem as

def queryFullScanGo (h : PyHash) (pred : Activity → Bool) :
    Option Nat → List SrcFile → Py (List Activity)
  | _, [] => .ok []
  | rem, f :: rest =>
    match loadFile h f with
    | .error e =>
      if caughtFile e then queryFullScanGo h pred rem rest else .error e
    | .ok as =>
      let t := takeUpTo pred rem as
      match t.2 with
      | some 0 => .ok t.1
      | rem' => (queryFullScanGo h pred rem' rest).map (t.1 ++ ·)

/-- `ActivityLoader._query_full_scan`: stream all files (per-file catch),
filter record by record, stop at the limit; `limit=0` is falsy, hence no
limit. No sort. -/
def queryFullScan (h : PyHash) (files : List SrcFile)
    (platform activity_type : Option String) (sd ed : Option DateTime)
    (limit : Option Nat) : Py (List Activity) :=
  let rem := match limit with
    | some n => if n = 0 then none else some n
    | none => none
  queryFullScanGo h (matchesFilters platform activity_type sd ed) rem files

/-- `ActivityLoader.count`: manifest totals / shard or filter lengths when an
index exists, else the length of the full-scan stream. -/
def loaderCount (h : PyHash) (st : IndexStore) (files : List SrcFile)
    (platform activity_type : Option String) : Py Nat :=
  if st.indexExists then
    match platform, activity_type with
    | some p, some t => (manifestQuery st (some p) (some t) none none).map (·.length)
    | some p, none => .ok (getActivitiesByPlatform st p).length
    | none, some t => .ok (getActivitiesByType st t).length
    | none, none => .ok (st.loadManifest).total_activities
  else
    (queryFullScan h files platform activity_type none none none).map (·.length)

/-!
### Store primitive (`RepoWriter.write_jsonl`, `metaspn/repo/writer.py`)

The atomic write path: records are serialized line by line into a fresh
sibling temp file, which is then renamed over the destination; on any
exception the temp file is unlinked and the exception re-raised.  An I/O
fault is injected either at the write of record `k` or at the rename.
-/

inductive WriteFault where
  | nofault : WriteFault
  | atRecord (k : Nat) : WriteFault
  | atRename : WriteFault
  deriving DecidableEq, Repr

/-- Destination file and the (fresh) temp file of one atomic write. -/
structure StoreFS where
  dest : Option (List RawLine)
  tmp : Option (List RawLine)
  deriving DecidableEq, Repr

/-- The `for record in records: f.write(json.dumps(record.to_dict()) + "\n")`
loop over the temp file handle, with the injected fault. -/
def writeLoop (fault : WriteFault) : Nat → List RawLine → List Json → Py (List RawLine)
  | _, acc, [] => .ok acc
  | i, acc, r :: rest =>
    if fault = .atRecord i then .error .osError
    else writeLoop fault (i + 1) (acc ++ [.val r]) rest

/-- `RepoWriter.write_jsonl(path, records, atomic=True)`:
`mkstemp` + write loop + `os.replace`, with
`except Exception: unlink(temp); raise`. -/
def writeJsonlAtomic (records : List Json) (fault : WriteFault) (fs : StoreFS) :
    Py Unit × StoreFS :=
  match writeLoop fault 0 [] records with
  | .error e => (.error e, { dest := fs.dest, tmp := none })
  | .ok content =>
    if fault = .atRename then (.error .osError, { dest := fs.dest, tmp := none })
    else (.ok (), { dest := some content, tmp := none })

/-- `RepoWriter.append_jsonl`: open-append one serialized line (creates the
file when absent). -/
def appendJsonl (record : Json) (dest : Option (List RawLine)) : List RawLine :=
  dest.getD [] ++ [.val record]

/-!
### Enhancement store (`metaspn/repo/enhancement_store.py`)

State of one enhancement kind: the `latest.jsonl` content (if the file
exists) and the `history/` directory as named files in creation order.
-/

structure EnhState where
  latest : Option (List RawLine)
  history : List (String × List RawLine)
  deriving DecidableEq, Repr

/-- `_load_enhancement_file_raw`: decoded lines, blanks and undecodable
lines skipped. -/
def rawRecords (content : List RawLine) : List Json :=
  content.filterMap (fun l => match l with | .val j => some j | _ => none)

/-- `_load_enhancements`, generic over the record class exactly as the
Python is generic in `cls`: lines are read front to back; a line is skipped
on `JSONDecodeError/KeyError/ValueError`, other exceptions propagate; parsed
records are keyed by activity id in a dict, so a later line overwrites an
earlier one's value in place.  `acc` is the dict built so far (starts `[]`). -/
def loadEnhancements {ρ : Type} (parse : Json → Py ρ) (idOf : ρ → Json)
    (acc : List (Json × ρ)) : List RawLine → Py (List (Json × ρ))
  | [] => .ok acc
  | .blank :: rest => loadEnhancements parse idOf acc rest
  | .invalid :: rest => loadEnhancements parse idOf acc rest
  | .val j :: rest =>
    match parse j with
    | .ok r => loadEnhancements parse idOf (alistUpd acc (idOf r) r) rest
    | .error e =>
      if caughtLine e then loadEnhancements parse idOf acc rest else .error e

/-- `QualityScoreEnhancement` (`metaspn/core/enhancements.py`). -/
structure QualityScoreEnhancement where
  activity_id : Json
  computed_at : DateTime
  algorithm_version : Json
  quality_score : Json
  content_score : Json
  consistency_score : Json
  depth_score : Json
  deriving DecidableEq, Repr

/-- `0.0 <= value <= 1.0` in `QualityScoreEnhancement.__post_init__`:
ValueError out of range, TypeError on a non-number (Python `bool` is an
int with value 0 or 1, hence always in range). -/
def checkScore (j : Json) : Py Unit :=
  match j with
  | .num q => if 0 ≤ q ∧ q ≤ 1 then .ok () else .error .valueError
  | .bool _ => .ok ()
  | _ => .error .typeError

/-- `QualityScoreEnhancement.from_dict` followed by `__post_init__`'s
range checks (field order as declared). -/
def qseFromDict (data : Json) : Py QualityScoreEnhancement := do
  let aid ← data.index "activity_id"
  let catj ← data.index "computed_at"
  let cat ← pyFromIso catj
  let ver ← data.getD "algorithm_version" (.str "1.0")
  let qs ← data.getD "quality_score" (.num 0)
  let cs ← data.getD "content_score" (.num 0)
  let cons ← data.getD "consistency_score" (.num 0)
  let ds ← data.getD "depth_score" (.num 0)
  checkScore qs
  checkScore cs
  checkScore cons
  checkScore ds
  return ⟨aid, cat, ver, qs, cs, cons, ds⟩

/-- `QualityScoreEnhancement.to_dict`. -/
def qseToDict (r : QualityScoreEnhancement) : Json :=
  .obj [("activity_id", r.activity_id),
        ("computed_at", .str r.computed_at.isoformat),
        ("algorithm_version", r.algorithm_version),
        ("quality_score", r.quality_score),
        ("content_score", r.content_score),
        ("consistency_score", r.consistency_score),
        ("depth_score", r.depth_score)]

/-- `EnhancementStore.load_quality_scores` on a latest-file content. -/
def loadQualityScores (content : Option (List RawLine)) :
    Py (List (Json × QualityScoreEnhancement)) :=
  match content with
  | none => .ok []
  | some c => loadEnhancements qseFromDict (·.activity_id) [] c

/-- `EnhancementStore.save_quality_scores(scores, append=True)`: one
`append_jsonl` per record. -/
def saveQualityScoresAppend (scores : List QualityScoreEnhancement)
    (st : EnhState) : EnhState :=
  { st with latest := some (scores.foldl (fun c r => appendJsonl (qseToDict r) (some c))
      (st.latest.getD [])) }

/-- `_archive_enhancement`'s version sniff: `readline` of the current latest
(`JSONDecodeError`/`OSError` → `"unknown"`; a decoded non-dict raises at
`.get`). -/
def firstLineVersion (content : List RawLine) : Py Json :=
  match content.head? with
  | none => .ok (.str "unknown")
  | some .blank => .ok (.str "unknown")
  | some .invalid => .ok (.str "unknown")
  | some (.val j) => j.getD "algorithm_version" (.str "unknown")

/-- The `while archive_path.exists()` rename loop (fuel bounds the counter
search; with fuel `|existing| + 1` a fresh name always exists). -/
def archiveNameLoop (existing : List String) (base : String) : Nat → Nat → String
  | 0, c => base ++ "_" ++ toString c ++ ".jsonl"
  | fuel + 1, c =>
    let cand := base ++ "_" ++ toString c ++ ".jsonl"
    if existing.contains cand then archiveNameLoop existing base fuel (c + 1) else cand

/-- `{date}_v{version}_{reason}[_{n}].jsonl`. -/
def archiveName (existing : List String) (date version reason : String) : String :=
  let base := date ++ "_v" ++ version ++ "_" ++ reason
  if existing.contains (base ++ ".jsonl") then
    archiveNameLoop existing base (existing.length + 1) 1
  else base ++ ".jsonl"

/-- `EnhancementStore.save_with_history` for one kind: archive the current
latest (a byte-for-byte copy) under a fresh dated name, then atomically
overwrite latest with the new records (happy path of the atomic write). -/
def saveWithHistory (records : List Json) (date reason : String) (st : EnhState) :
    Py EnhState :=
  match st.latest with
  | none => .ok { latest := some (records.map .val), history := st.history }
  | some content => do
    let v ← firstLineVersion content
    let name := archiveName (st.history.map (·.1)) date (pyStr v) reason
    return { latest := some (records.map .val),
             history := st.history ++ [(name, content)] }

/-- `EnhancementStore.list_history`: names sorted descending. -/
def listHistory (st : EnhState) : List (String × List RawLine) :=
  st.history.insertionSort (fun a b => b.1 ≤ a.1)

/-- `enh["_source"] = tag`. -/
def tagSource (j : Json) (tag : String) : Json :=
  match j with
  | .obj kvs => .obj (alistUpd kvs "_source" (.str tag))
  | other => other

/-- Collect the timeline hits of one file: records whose
`enh.get("activity_id")` equals the queried id, tagged with the file's
source name (`.get` on a decoded non-dict raises). -/
def timelineCollect (content : List RawLine) (tag : String) (aid : String) :
    Py (List Json) :=
  go (rawRecords content)
where go : List Json → Py (List Json)
  | [] => .ok []
  | j :: rest => do
    let v ← j.get "activity_id"
    let tl ← go rest
    return (if v = Json.str aid then tagSource j tag :: tl else tl)

/-- Sort key `x.get("computed_at", "")` (entries reaching the sort are
dicts; a non-string value would make Python's comparison raise — the model
orders such entries by `""`, which no claim depends on). -/
def computedAtKey (j : Json) : String :=
  match j with
  | .obj kvs =>
    match alistGet kvs "computed_at" with
    | some (.str s) => s
    | _ => ""
  | _ => ""

/-- `EnhancementStore.get_enhancement_timeline`: hits in latest (tagged
`"latest"`), then every history file (tagged with its name), sorted by
`computed_at` descending. -/
def getEnhancementTimeline (st : EnhState) (aid : String) : Py (List Json) := do
  let latestPart ← match st.latest with
    | some c => timelineCollect c "latest" aid
    | none => .ok []
  let histPart ← histGo (listHistory st)
  let all := latestPart ++ histPart
  return all.insertionSort (fun a b => computedAtKey b ≤ computedAtKey a)
where histGo : List (String × List RawLine) → Py (List Json)
  | [] => .ok []
  | (name, c) :: rest => do
    let hits ← timelineCollect c name aid
    let tl ← histGo rest
    return hits ++ tl

/-!
### Repository layout validation (`metaspn/repo/structure.py`) and eager
construction checks
-/

/-- The filesystem facts `RepoStructure.validate` inspects. -/
structure RepoFS where
  hasMetaJson : Bool
  hasMetaspnDir : Bool
  hasProfileJson : Bool
  hasSourcesDir : Bool
  hasArtifactsDir : Bool
  deriving DecidableEq, Repr

/-- `RepoStructure.validate` (legacy `meta.json` layout first, else the
standard layout checks). -/
def RepoFS.validate (fs : RepoFS) : Bool :=
  if fs.hasMetaJson then fs.hasMetaJson && (fs.hasSourcesDir || fs.hasArtifactsDir)
  else fs.hasMetaspnDir && fs.hasProfileJson && (fs.hasSourcesDir || fs.hasArtifactsDir)

/-- `RepoReader.__init__`: validate, `ValueError` on failure. -/
def RepoReader.init (fs : RepoFS) : Py Unit :=
  if fs.validate then .ok () else .error .valueError

/-- `RepoWriter.__init__`: validate, `ValueError` on failure. -/
def RepoWriter.init (fs : RepoFS) : Py Unit :=
  if fs.validate then .ok () else .error .valueError

/-- `ActivityLoader.__init__`: builds its structure and manifest manager,
then validates. -/
def ActivityLoader.init (fs : RepoFS) : Py Unit :=
  if fs.validate then .ok () else .error .valueError

/-- `EnhancementStore.__init__`: constructs a `RepoWriter`, which validates. -/
def EnhancementStore.init (fs : RepoFS) : Py Unit :=
  RepoWriter.init fs

/-- `ManifestManager.__init__`: stores the structure and a `None` manifest —
no validation at all. -/
def ManifestManager.init (_fs : RepoFS) : Py Unit :=
  .ok ()

/-!
### Claim C3: all-or-nothing atomic write
-/

/-- "An I/O error occurs during the write": at some record actually written,
or at the rename. -/
def faultDuring (records : List Json) : WriteFault → Prop
  | .nofault => False
  | .atRecord k => k < records.length
  | .atRename => True

theorem writeLoop_ok (fault : WriteFault) (h : ∀ k, fault ≠ .atRecord k) :
    ∀ (records : List Json) (i : Nat) (acc : List RawLine),
      writeLoop fault i acc records = .ok (acc ++ records.map .val) := by
  intro records
  induction records with
  | nil => intro i acc; simp [writeLoop]
  | cons r rest ih =>
    intro i acc
    simp [writeLoop, h i, ih (i + 1) (acc ++ [.val r])]

theorem writeLoop_fault (k : Nat) :
    ∀ (records : List Json) (i : Nat) (acc : List RawLine),
      i ≤ k → k < i + records.length →
      writeLoop (.atRecord k) i acc records = .error .osError := by
  intro records
  induction records with
  | nil => intro i acc h1 h2; simp at h2; omega
  | cons r rest ih =>
    intro i acc h1 h2
    by_cases hik : k = i
    · simp [writeLoop, hik]
    · have : i + 1 ≤ k := by omega
      simp only [writeLoop, List.length_cons] at h2 ⊢
      rw [if_neg (by simp [WriteFault.atRecord.injEq]; omega)]
      exact ih (i + 1) (acc ++ [.val r]) this (by omega)

/-- C3: if an I/O fault strikes during the atomic write, the call raises, the
temp file is gone and the destination's prior contents are untouched; with no
fault the destination holds exactly the new records (and the temp file is
gone). -/
theorem write_jsonl_atomic_all_or_nothing (records : List Json) (fault : WriteFault)
    (fs : StoreFS) :
    (faultDuring records fault →
      (writeJsonlAtomic records fault fs).1 = .error .osError ∧
      (writeJsonlAtomic records fault fs).2.dest = fs.dest ∧
      (writeJsonlAtomic records fault fs).2.tmp = none) ∧
    (fault = .nofault →
      (writeJsonlAtomic records fault fs).1 = .ok () ∧
      (writeJsonlAtomic records fault fs).2.dest = some (records.map .val) ∧
      (writeJsonlAtomic records fault fs).2.tmp = none) := by
  cases fault with
  | nofault =>
    refine ⟨fun hf => absurd hf (by simp [faultDuring]), fun _ => ?_⟩
    simp [writeJsonlAtomic, writeLoop_ok .nofault (by intro k; simp) records 0 []]
  | atRecord k =>
    refine ⟨fun hf => ?_, fun hn => by cases hn⟩
    have hlt : k < records.length := hf
    simp [writeJsonlAtomic, writeLoop_fault k records 0 [] (by omega) (by omega)]
  | atRename =>
    refine ⟨fun _ => ?_, fun hn => by cases hn⟩
    simp [writeJsonlAtomic, writeLoop_ok .atRename (by intro k; simp) records 0 []]

def recordsC3 : List Json := [.obj [("activity_id", .str "a")]]

def storeFS0 : StoreFS := ⟨some [.val (.str "old")], none⟩

/-- Witness for C3: a fault at the first record write errors and leaves the
old destination; the fault-free run replaces it. -/
theorem write_jsonl_atomic_all_or_nothing_witness :
    ((writeJsonlAtomic recordsC3 (.atRecord 0) storeFS0).1 = .error .osError ∧
      (writeJsonlAtomic recordsC3 (.atRecord 0) storeFS0).2.dest = storeFS0.dest ∧
      (writeJsonlAtomic recordsC3 (.atRecord 0) storeFS0).2.tmp = none) ∧
    ((writeJsonlAtomic recordsC3 .nofault storeFS0).1 = .ok () ∧
      (writeJsonlAtomic recordsC3 .nofault storeFS0).2.dest
        = some (recordsC3.map .val) ∧
      (writeJsonlAtomic recordsC3 .nofault storeFS0).2.tmp = none) :=
  ⟨(write_jsonl_atomic_all_or_nothing recordsC3 (.atRecord 0) storeFS0).1
      (show 0 < recordsC3.length by decide),
   (write_jsonl_atomic_all_or_nothing recordsC3 .nofault storeFS0).2 rfl⟩

/-!
### Claim C8: eager construction-time validation
-/

def invalidFS : RepoFS := ⟨false, false, false, false, false⟩

/-- C8 fails as stated: on an invalid layout `ManifestManager.__init__` does
not raise — it only stores the path and a `None` manifest, so the "manifest
index" component constructs fine before any read or write. -/
theorem manifest_manager_constructs_on_invalid_repo :
    invalidFS.validate = false ∧ ManifestManager.init invalidFS = .ok () := by
  constructor <;> rfl

/-- C8 amended: on an invalid layout the reader, writer, loader and
enhancement store all raise at construction, but the manifest manager does
not. -/
theorem eager_validation_except_manifest_manager (fs : RepoFS)
    (h : fs.validate = false) :
    RepoReader.init fs = .error .valueError ∧
    RepoWriter.init fs = .error .valueError ∧
    ActivityLoader.init fs = .error .valueError ∧
    EnhancementStore.init fs = .error .valueError ∧
    ManifestManager.init fs = .ok () := by
  simp [RepoReader.init, RepoWriter.init, ActivityLoader.init, EnhancementStore.init,
    ManifestManager.init, h]

/-- Witness for the amended C8 at a concrete invalid layout. -/
theorem eager_validation_except_manifest_manager_witness :
    invalidFS.validate = false ∧
      (RepoReader.init invalidFS = .error .valueError ∧
        RepoWriter.init invalidFS = .error .valueError ∧
        ActivityLoader.init invalidFS = .error .valueError ∧
        EnhancementStore.init invalidFS = .error .valueError ∧
        ManifestManager.init invalidFS = .ok ()) :=
  ⟨by decide, eager_validation_except_manifest_manager invalidFS (by decide)⟩

/-!
### Claim C9: determinism of the generated activity id
-/

def hashA : PyHash := fun _ => 0

def hashB : PyHash := fun _ => 1

def actC9 : Activity :=
  ⟨⟨2024, 3, 1, 8, 30, 0, 0, none⟩, .str "blog", .str "create", .str "x",
    .null, .null, .null, .null, .null, .obj [], .null⟩

/-- C9 fails as stated: the generated id embeds `hash(title or '')`, and
CPython's string hash is salted per process (PYTHONHASHSEED), so two
constructions from the same timestamp, platform and title in different
processes — two different `PyHash` values — produce different ids. -/
theorem generated_id_differs_across_processes :
    (Activity.postInit hashA actC9).activity_id
      ≠ (Activity.postInit hashB actC9).activity_id := by
  decide

/-- C9 amended: within one process (a fixed `PyHash`), the generated id is a
function of timestamp, platform and title only — two constructions agreeing
on those fields (with no caller-supplied id) get the same id. -/
theorem generated_id_deterministic_within_process (hp : PyHash) (a1 a2 : Activity)
    (hts : a1.timestamp = a2.timestamp) (hpf : a1.platform = a2.platform)
    (hti : a1.title = a2.title) (h1 : a1.activity_id = Json.null)
    (h2 : a2.activity_id = Json.null) :
    (Activity.postInit hp a1).activity_id = (Activity.postInit hp a2).activity_id := by
  simp [Activity.postInit, h1, h2, hts, hpf, hti]

def actC9b : Activity :=
  ⟨⟨2024, 3, 1, 8, 30, 0, 0, none⟩, .str "blog", .str "create", .str "x",
    .str "different body", .null, .null, .null, .null, .obj [("k", .num 1)], .null⟩

/-- Witness for the amended C9: `actC9` and `actC9b` differ in content and
raw_data but agree on timestamp, platform and title. -/
theorem generated_id_deterministic_within_process_witness :
    (Activity.postInit hashA actC9).activity_id
      = (Activity.postInit hashA actC9b).activity_id :=
  generated_id_deterministic_within_process hashA actC9 actC9b rfl rfl rfl rfl rfl

/-!
### Claim C10: duplicate ids in a latest file — last parseable line wins
-/

/-- The record of the last parseable line whose id is `k` (later lines take
priority over earlier ones). -/
def lastParsedWith {ρ : Type} (parse : Json → Py ρ) (idOf : ρ → Json) (k : Json) :
    List RawLine → Option ρ
  | [] => none
  | .val j :: rest =>
    match parse j with
    | .ok r =>
      match lastParsedWith parse idOf k rest with
      | some r' => some r'
      | none => if idOf r = k then some r else none
    | .error _ => lastParsedWith parse idOf k rest
  | .blank :: rest => lastParsedWith parse idOf k rest
  | .invalid :: rest => lastParsedWith parse idOf k rest

theorem alistFind_nil {κ β : Type} [DecidableEq κ] (k : κ) :
    alistFind ([] : List (κ × β)) k = none := rfl

theorem alistFind_cons {κ β : Type} [DecidableEq κ] (x : κ × β) (l : List (κ × β))
    (k : κ) :
    alistFind (x :: l) k = if x.1 = k then some x.2 else alistFind l k := by
  by_cases h : x.1 = k <;> simp [alistFind, List.find?, h]

theorem alistFind_upd {κ β : Type} [DecidableEq κ] (m : List (κ × β)) (k : κ) (v : β)
    (k' : κ) :
    alistFind (alistUpd m k v) k' = if k' = k then some v else alistFind m k' := by
  induction m with
  | nil =>
    by_cases h : k' = k
    · subst h; simp [alistUpd, alistFind_cons]
    · have h2 : ¬ (k = k') := fun he => h he.symm
      simp [alistUpd, alistFind_cons, h, h2, alistFind_nil]
  | cons kv rest ih =>
    by_cases hkv : kv.1 = k
    · rw [show alistUpd (kv :: rest) k v = (kv.1, v) :: rest from by
        simp [alistUpd, hkv]]
      rw [alistFind_cons, alistFind_cons]
      by_cases h : kv.1 = k'
      · have hk : k' = k := h.symm.trans hkv
        simp [h, hk]
      · have hk : ¬ k' = k := fun he => h (hkv.trans he.symm)
        simp [h, hk]
    · rw [show alistUpd (kv :: rest) k v = kv :: alistUpd rest k v from by
        simp [alistUpd, hkv]]
      rw [alistFind_cons, alistFind_cons]
      by_cases h : kv.1 = k'
      · have hk : ¬ k' = k := fun he => hkv (h.trans he)
        simp [h, hk]
      · simp [h, ih]

theorem alistUpd_keys_mem {κ β : Type} [DecidableEq κ] (m : List (κ × β)) (k : κ) (v : β)
    (x : κ) :
    x ∈ (alistUpd m k v).map (·.1) ↔ x ∈ m.map (·.1) ∨ x = k := by
  induction m with
  | nil => simp [alistUpd]
  | cons kv rest ih =>
    by_cases hkv : kv.1 = k
    · rw [show alistUpd (kv :: rest) k v = (kv.1, v) :: rest from by
        simp [alistUpd, hkv]]
      simp only [List.map_cons, List.mem_cons, hkv]
      tauto
    · rw [show alistUpd (kv :: rest) k v = kv :: alistUpd rest k v from by
        simp [alistUpd, hkv]]
      simp only [List.map_cons, List.mem_cons, ih]
      tauto

theorem alistUpd_keys_nodup {κ β : Type} [DecidableEq κ] (m : List (κ × β)) (k : κ)
    (v : β) (h : (m.map (·.1)).Nodup) : ((alistUpd m k v).map (·.1)).Nodup := by
  induction m with
  | nil => simp [alistUpd]
  | cons kv rest ih =>
    simp only [List.map_cons, List.nodup_cons] at h
    by_cases hkv : kv.1 = k
    · rw [show alistUpd (kv :: rest) k v = (kv.1, v) :: rest from by
        simp [alistUpd, hkv]]
      simp only [List.map_cons, List.nodup_cons]
      exact h
    · rw [show alistUpd (kv :: rest) k v = kv :: alistUpd rest k v from by
        simp [alistUpd, hkv]]
      simp only [List.map_cons, List.nodup_cons]
      refine ⟨fun hm => ?_, ih h.2⟩
      rcases (alistUpd_keys_mem rest k v kv.1).mp hm with hin | he
      · exact h.1 hin
      · exact hkv he

theorem loadEnhancements_go {ρ : Type} (parse : Json → Py ρ) (idOf : ρ → Json) :
    ∀ (content : List RawLine) (acc m : List (Json × ρ)),
      loadEnhancements parse idOf acc content = .ok m →
      ((acc.map (·.1)).Nodup → (m.map (·.1)).Nodup) ∧
      ∀ k, alistFind m k =
        (match lastParsedWith parse idOf k content with
         | some r => some r
         | none => alistFind acc k) := by
  intro content
  induction content with
  | nil =>
    intro acc m hok
    simp only [loadEnhancements] at hok
    cases hok
    exact ⟨id, fun k => by simp [lastParsedWith]⟩
  | cons line rest ih =>
    intro acc m hok
    match line with
    | .blank =>
      simp only [loadEnhancements] at hok
      exact ⟨(ih acc m hok).1, fun k => (ih acc m hok).2 k⟩
    | .invalid =>
      simp only [loadEnhancements] at hok
      exact ⟨(ih acc m hok).1, fun k => (ih acc m hok).2 k⟩
    | .val j =>
      simp only [loadEnhancements] at hok
      cases hp : parse j with
      | ok r =>
        rw [hp] at hok
        obtain ⟨hnd, hfind⟩ := ih (alistUpd acc (idOf r) r) m hok
        refine ⟨fun ha => hnd (alistUpd_keys_nodup acc (idOf r) r ha), fun k => ?_⟩
        have := hfind k
        simp only [lastParsedWith, hp]
        cases hl : lastParsedWith parse idOf k rest with
        | some r' => rw [hl] at this; simpa using this
        | none =>
          rw [hl] at this
          rw [this, alistFind_upd]
          by_cases hk : idOf r = k
          · simp [hk]
          · have : ¬ k = idOf r := fun he => hk he.symm
            simp [hk, this]
      | error e =>
        simp only [hp] at hok
        by_cases hc : caughtLine e
        · rw [if_pos hc] at hok
          obtain ⟨hnd, hfind⟩ := ih acc m hok
          exact ⟨hnd, fun k => by simp only [lastParsedWith, hp]; exact hfind k⟩
        · rw [if_neg hc] at hok
          cases hok

/-- C10: loading a latest file with several parseable records for the same
activity_id yields a map with one binding per id, holding the record of the
last parseable line with that id — so an appended fresh record acts as an
update at load time. -/
theorem load_enhancements_last_wins {ρ : Type} (parse : Json → Py ρ) (idOf : ρ → Json)
    (content : List RawLine) (m : List (Json × ρ))
    (hok : loadEnhancements parse idOf [] content = .ok m) (k : Json) :
    (m.map (·.1)).Nodup ∧ alistFind m k = lastParsedWith parse idOf k content := by
  obtain ⟨hnd, hfind⟩ := loadEnhancements_go parse idOf content [] m hok
  refine ⟨hnd (by simp), ?_⟩
  have := hfind k
  cases hl : lastParsedWith parse idOf k content with
  | some r => rw [hl] at this; simpa using this
  | none => rw [hl] at this; simpa [alistFind] using this

/-- Two quality-score records for the same id: an earlier one (score 0)
then an appended fresh one (score 1), plus one malformed line. -/
def contentC10 : List RawLine :=
  [.val (.obj [("activity_id", .str "a"), ("computed_at", .str "2024-01-01T00:00:00"),
               ("algorithm_version", .str "1.0"), ("quality_score", .num 0)]),
   .invalid,
   .val (.obj [("activity_id", .str "a"), ("computed_at", .str "2024-02-01T00:00:00"),
               ("algorithm_version", .str "1.0"), ("quality_score", .num 1)])]

/-- The expected load result: one binding, holding the later record. -/
def qseC10 : QualityScoreEnhancement :=
  ⟨.str "a", ⟨2024, 2, 1, 0, 0, 0, 0, none⟩, .str "1.0", .num 1, .num 0, .num 0,
    .num 0⟩

/-- Witness for C10 on `contentC10` with the quality-score record class. -/
theorem load_enhancements_last_wins_witness :
    loadEnhancements qseFromDict (·.activity_id) [] contentC10
        = Except.ok [(Json.str "a", qseC10)] ∧
      (([(Json.str "a", qseC10)].map (·.1)).Nodup ∧
        alistFind [(Json.str "a", qseC10)] (Json.str "a")
          = lastParsedWith qseFromDict (·.activity_id) (Json.str "a") contentC10) :=
  ⟨by decide,
   load_enhancements_last_wins qseFromDict (·.activity_id) contentC10
     [(Json.str "a", qseC10)] (by decide) (Json.str "a")⟩

/-!
### Claim C7: ordering of the no-index full-scan path
-/

instance : IsTrans Activity tsLe :=
  ⟨fun _ _ _ hab hbc => le_trans hab hbc⟩

instance : IsTotal Activity tsLe :=
  ⟨fun a b => le_total (dtKey a.timestamp) (dtKey b.timestamp)⟩

def recLate : Json :=
  .obj [("timestamp", .str "2024-05-01T00:00:00"), ("platform", .str "twitter"),
        ("activity_type", .str "create"), ("activity_id", .str "late")]

def recEarly : Json :=
  .obj [("timestamp", .str "2024-01-01T00:00:00"), ("platform", .str "twitter"),
        ("activity_type", .str "create"), ("activity_id", .str "early")]

def actLate : Activity :=
  ⟨⟨2024, 5, 1, 0, 0, 0, 0, none⟩, .str "twitter", .str "create", .null, .null, .null,
    .null, .null, .null, .obj [], .str "late"⟩

def actEarly : Activity :=
  ⟨⟨2024, 1, 1, 0, 0, 0, 0, none⟩, .str "twitter", .str "create", .null, .null, .null,
    .null, .null, .null, .obj [], .str "early"⟩

def filesC7 : List SrcFile := [.jsonl [.val recLate, .val recEarly]]

/-- C7 fails as stated: with no manifest, `ActivityLoader._query_full_scan`
yields matching activities in file-scan order with no final sort — a file
storing a later-timestamped record first comes back unsorted. -/
theorem full_scan_not_timestamp_sorted :
    queryFullScan h0 filesC7 none none none none none = .ok [actLate, actEarly] ∧
      ¬ ([actLate, actEarly].Pairwise tsLe) := by
  constructor
  · rfl
  · intro hp
    have := List.rel_of_pairwise_cons hp (List.mem_singleton.mpr rfl)
    revert this
    decide

theorem takeUpTo_none (pred : Activity → Bool) :
    ∀ as : List Activity, takeUpTo pred none as = (as.filter pred, none) := by
  intro as
  induction as with
  | nil => simp [takeUpTo]
  | cons a rest ih =>
    by_cases hp : pred a <;> simp [takeUpTo, List.filter_cons, hp, ih]

theorem queryFullScanGo_none (h : PyHash) (pred : Activity → Bool) :
    ∀ files : List SrcFile,
      queryFullScanGo h pred none files
        = (loadActivitiesNoSort h files).map (List.filter pred) := by
  intro files
  induction files with
  | nil => simp [queryFullScanGo, loadActivitiesNoSort, Except.map]
  | cons f rest ih =>
    simp only [queryFullScanGo, loadActivitiesNoSort]
    cases hf : loadFile h f with
    | error e =>
      by_cases hc : caughtFile e
      · simp [hc, ih]
      · simp [hc, Except.map]
    | ok as =>
      simp only [takeUpTo_none, ih]
      cases hrest : loadActivitiesNoSort h rest with
      | error e => simp [Except.map]
      | ok bs => simp [Except.map, List.filter_append]

/-- C7 amended: the no-index full-scan query (unlimited) returns the
matching activities in event-log file-scan order — exactly the filtered
stream, with no sort; the timestamp sort exists only in
`RepoReader.load_activities`, whose result is always sorted. -/
theorem full_scan_scan_order_reader_sorts :
    (∀ (h : PyHash) (files : List SrcFile) (p t : Option String)
        (sd ed : Option DateTime),
      queryFullScan h files p t sd ed none
        = (loadActivitiesNoSort h files).map (List.filter (matchesFilters p t sd ed))) ∧
    (∀ (h : PyHash) (files : List SrcFile) (l : List Activity),
      RepoReader.load_activities h files = .ok l → l.Pairwise tsLe) := by
  constructor
  · intro h files p t sd ed
    exact queryFullScanGo_none h (matchesFilters p t sd ed) files
  · intro h files l hl
    simp only [RepoReader.load_activities] at hl
    cases hx : loadActivitiesNoSort h files with
    | error e => rw [hx] at hl; cases hl
    | ok as =>
      rw [hx] at hl
      simp only [Except.map] at hl
      cases hl
      exact List.sorted_insertionSort tsLe as

/-- Witness for the amended C7: the same unsorted file comes back
timestamp-sorted from `RepoReader.load_activities`. -/
theorem full_scan_scan_order_reader_sorts_witness :
    RepoReader.load_activities h0 filesC7 = .ok [actEarly, actLate] ∧
      [actEarly, actLate].Pairwise tsLe :=
  ⟨by rfl,
   full_scan_scan_order_reader_sorts.2 h0 filesC7 [actEarly, actLate] (by rfl)⟩

/-!
### Claim C5: manifest total vs. unfiltered full-scan count
-/

/-- One event-log file holding the same canonical record twice (a duplicated
append). -/
def fileC5 : LogFile :=
  ⟨["artifacts", "twitter", "tweets.jsonl"], .jsonl [.val validRec, .val validRec]⟩

/-- C5 fails as stated: the manifest deduplicates by activity_id
(`manifest.activities[id] = index` overwrites), while the unfiltered full
scan counts every parsed record — a repository with a duplicated record has
manifest total 1 but scan count 2. -/
theorem manifest_total_ne_full_scan_count :
    (ManifestManager.build h0 [fileC5] "2024-06-01T00:00:00" IndexStore.empty).map
        (fun st => st.loadManifest.total_activities) = .ok 1 ∧
      loaderCount h0 IndexStore.empty [fileC5.file] none none = .ok 2 := by
  constructor <;> rfl

/-- Activity ids retained by the build loop: truthy ones, in stream order. -/
def truthyIds (as : List Activity) : List Json :=
  (as.filter (fun a => a.activity_id.truthy)).map (·.activity_id)

theorem truthyIds_append (as bs : List Activity) :
    truthyIds (as ++ bs) = truthyIds as ++ truthyIds bs := by
  simp [truthyIds, List.filter_append]

theorem buildFold_keys (st pf fp : String) :
    ∀ (as : List Activity) (acc : BuildAcc) (ln : Nat),
      (∀ x, x ∈ ((buildFold st pf fp acc ln as).m).map (·.1) ↔
        x ∈ acc.m.map (·.1) ∨ x ∈ truthyIds as) ∧
      ((acc.m.map (·.1)).Nodup → (((buildFold st pf fp acc ln as).m).map (·.1)).Nodup) := by
  intro as
  induction as with
  | nil => intro acc ln; simp [buildFold, truthyIds]
  | cons a rest ih =>
    intro acc ln
    by_cases ht : a.activity_id.truthy
    · have hstep : buildFold st pf fp acc ln (a :: rest)
          = buildFold st pf fp
            ⟨buildFold.dictInsertIdx acc.m a.activity_id
                ⟨a.activity_id, st, .str pf, a.activity_type, a.timestamp.isoformat, fp, ln⟩,
              bumpCount acc.byPlat pf,
              bumpCount acc.byYear (yearStr a.timestamp),
              appendEntry acc.byMonth (monthStr a.timestamp) a.activity_id,
              bumpCount acc.byType a.activity_type⟩ (ln + 1) rest := by
        simp [buildFold, ht]
      rw [hstep]
      obtain ⟨hmem, hnd⟩ := ih _ (ln + 1)
      constructor
      · intro x
        rw [hmem x]
        simp only [buildFold.dictInsertIdx, alistUpd_keys_mem, truthyIds,
          List.filter_cons, ht, if_true, List.map_cons, List.mem_cons]
        constructor
        · rintro ((h | h) | h)
          · exact Or.inl h
          · exact Or.inr (Or.inl h)
          · exact Or.inr (Or.inr h)
        · rintro (h | h | h)
          · exact Or.inl (Or.inl h)
          · exact Or.inl (Or.inr h)
          · exact Or.inr h
      · intro hacc
        exact hnd (alistUpd_keys_nodup _ _ _ hacc)
    · have hstep : buildFold st pf fp acc ln (a :: rest)
          = buildFold st pf fp acc (ln + 1) rest := by
        simp [buildFold, ht]
      rw [hstep]
      obtain ⟨hmem, hnd⟩ := ih acc (ln + 1)
      refine ⟨fun x => ?_, hnd⟩
      rw [hmem x]
      simp [truthyIds, List.filter_cons, ht]

theorem buildGo_keys (h : PyHash) :
    ∀ (files : List LogFile) (acc : BuildAcc) (res : BuildAcc),
      buildGo h acc files = .ok res →
      ∃ as, loadActivitiesNoSort h (files.map (·.file)) = .ok as ∧
        (∀ x, x ∈ res.m.map (·.1) ↔ x ∈ acc.m.map (·.1) ∨ x ∈ truthyIds as) ∧
        ((acc.m.map (·.1)).Nodup → (res.m.map (·.1)).Nodup) := by
  intro files
  induction files with
  | nil =>
    intro acc res hok
    simp only [buildGo] at hok
    cases hok
    exact ⟨[], rfl, fun x => by simp [truthyIds], id⟩
  | cons f rest ih =>
    intro acc res hok
    simp only [buildGo] at hok
    cases hf : loadFile h f.file with
    | error e => rw [hf] at hok; cases hok
    | ok as0 =>
      rw [hf] at hok
      simp only [bind, Except.bind] at hok
      obtain ⟨as1, hload, hmem, hnd⟩ := ih _ res hok
      obtain ⟨hfmem, hfnd⟩ := buildFold_keys (determineSourceType f.parts)
        (determinePlatform f.parts) (joinParts f.parts) as0 acc 1
      refine ⟨as0 ++ as1, ?_, fun x => ?_, fun ha => hnd (hfnd ha)⟩
      · simp only [List.map_cons, loadActivitiesNoSort, hf, hload, Except.map]
      · rw [hmem x, hfmem x, truthyIds_append]
        simp only [List.mem_append]
        tauto

theorem length_eq_of_nodup_same_mem {α : Type} [DecidableEq α] (l1 l2 : List α)
    (h1 : l1.Nodup) (h2 : l2.Nodup) (hm : ∀ x, x ∈ l1 ↔ x ∈ l2) :
    l1.length = l2.length := by
  rw [← List.toFinset_card_of_nodup h1, ← List.toFinset_card_of_nodup h2]
  congr 1
  ext x
  simp [hm x]

/-- C5 amended: after a successful build, the manifest total equals the
number of distinct truthy activity_ids in the unfiltered full scan, while
the no-index full-scan count counts every parsed record — the two agree only
when the scan holds no duplicate (and no falsy) ids. -/
theorem manifest_total_counts_distinct_ids (h : PyHash) (files : List LogFile)
    (now : String) (prior : IndexStore) (st : IndexStore) (as : List Activity)
    (hb : ManifestManager.build h files now prior = .ok st)
    (hs : loadActivitiesNoSort h (files.map (·.file)) = .ok as) :
    loaderCount h IndexStore.empty (files.map (·.file)) none none = .ok as.length ∧
      st.loadManifest.total_activities = (truthyIds as).dedup.length := by
  constructor
  · have hq := queryFullScanGo_none h (matchesFilters none none none none)
      (files.map (·.file))
    rw [hs] at hq
    have hfa : List.filter (matchesFilters none none none none) as = as :=
      List.filter_eq_self.mpr (fun a _ => by simp [matchesFilters])
    simp [loaderCount, IndexStore.indexExists, IndexStore.empty, queryFullScan, hq,
      Except.map, hfa]
  · simp only [ManifestManager.build] at hb
    cases hg : buildGo h BuildAcc.empty files with
    | error e => rw [hg] at hb; cases hb
    | ok acc =>
      rw [hg] at hb
      simp only [Except.bind, pure, Except.pure] at hb
      obtain ⟨as2, hload2, hmem, hnd⟩ := buildGo_keys h files BuildAcc.empty acc hg
      have has : as2 = as := by
        rw [hs] at hload2
        exact (Except.ok.injEq _ _).mp hload2.symm ▸ rfl
      subst has
      cases hb
      simp only [IndexStore.loadManifest, Option.getD]
      have hlen : acc.m.length = (acc.m.map (·.1)).length := by simp
      rw [hlen]
      have hnd2 := hnd (by simp [BuildAcc.empty])
      have hdm : ∀ x, x ∈ acc.m.map (·.1) ↔ x ∈ (truthyIds as2).dedup := by
        intro x
        rw [hmem x]
        simp [BuildAcc.empty, List.mem_dedup]
      exact length_eq_of_nodup_same_mem _ _ hnd2 (List.nodup_dedup _) hdm

def actT2 : Activity :=
  ⟨⟨2024, 1, 16, 9, 0, 0, 0, none⟩, .str "twitter", .str "create", .null, .null, .null,
    .null, .null, .null, .obj [], .str "t2"⟩

/-- Witness for the amended C5 on the duplicated-record repository:
scan count 2, manifest total 1 (= one distinct id). -/
theorem manifest_total_counts_distinct_ids_witness :
    ∃ st as, ManifestManager.build h0 [fileC5] "2024-06-01T00:00:00" IndexStore.empty
        = .ok st ∧
      loadActivitiesNoSort h0 [fileC5.file] = .ok as ∧
      (loaderCount h0 IndexStore.empty [fileC5.file] none none = .ok as.length ∧
        st.loadManifest.total_activities = (truthyIds as).dedup.length) := by
  refine ⟨(ManifestManager.build h0 [fileC5] "2024-06-01T00:00:00"
      IndexStore.empty).toOption.get (by rfl), _, ?_, rfl, ?_⟩
  · rfl
  · exact manifest_total_counts_distinct_ids h0 [fileC5] "2024-06-01T00:00:00"
      IndexStore.empty _ _ (by rfl) (by rfl)

/-!
### Claim C4: incremental update vs. full rebuild
-/

def recT2 : Json :=
  .obj [("timestamp", .str "2024-01-16T09:00:00"), ("platform", .str "twitter"),
        ("activity_type", .str "create"), ("activity_id", .str "t2")]

def filesC4a : List LogFile :=
  [⟨["artifacts", "twitter", "tweets.jsonl"], .jsonl [.val validRec]⟩]

def filesC4b : List LogFile :=
  [⟨["artifacts", "twitter", "tweets.jsonl"], .jsonl [.val validRec, .val recT2]⟩]

/-- C4 fails as stated: `update_incremental` never rewrites the per-platform
shard files, and `get_activities_by_platform` prefers the shard — after
incrementally adding the new twitter activity `t2`, the platform query still
returns only `t1`, while a full rebuild over the appended log returns both. -/
theorem incremental_platform_query_stale :
    (do
      let st1 ← ManifestManager.build h0 filesC4a "d1" IndexStore.empty
      let p := ManifestManager.update_incremental st1 [actT2] "d2"
      return getActivitiesByPlatform p.1 "twitter") = .ok [Json.str "t1"] ∧
    (do
      let st1 ← ManifestManager.build h0 filesC4a "d1" IndexStore.empty
      let st2 ← ManifestManager.build h0 filesC4b "d3" st1
      return getActivitiesByPlatform st2 "twitter")
        = .ok [Json.str "t1", Json.str "t2"] ∧
    (Json.str "t2" ∈ [Json.str "t1", Json.str "t2"] ∧
      Json.str "t2" ∉ [Json.str "t1"]) := by
  refine ⟨by rfl, by rfl, by decide, by decide⟩

/-- The projection of an index entry the type/date/count queries read. -/
def entryView (e : ActivityIndex) : Json × String := (e.activity_type, e.timestamp)

/-- The activity whose index entry survives the build loop for a given id:
the last one with that (truthy) id. -/
def lastIndexedWith (id : Json) : List Activity → Option Activity
  | [] => none
  | a :: rest =>
    match lastIndexedWith id rest with
    | some b => some b
    | none =>
      if a.activity_id.truthy && a.activity_id = id then some a else none

theorem lastIndexedWith_append (id : Json) (as bs : List Activity) :
    lastIndexedWith id (as ++ bs)
      = match lastIndexedWith id bs with
        | some b => some b
        | none => lastIndexedWith id as := by
  induction as with
  | nil =>
    simp only [List.nil_append, lastIndexedWith]
    cases lastIndexedWith id bs <;> rfl
  | cons a rest ih =>
    simp only [List.cons_append, lastIndexedWith, List.append_eq, ih]
    cases lastIndexedWith id bs <;> cases lastIndexedWith id rest <;> rfl

theorem lastIndexedWith_none (id : Json) (bs : List Activity)
    (h : ∀ b ∈ bs, b.activity_id ≠ id) : lastIndexedWith id bs = none := by
  induction bs with
  | nil => rfl
  | cons b rest ih =>
    simp only [lastIndexedWith, ih (fun x hx => h x (by simp [hx]))]
    have := h b (by simp)
    simp [this]

theorem alistFind_isSome_mem {κ β : Type} [DecidableEq κ] (m : List (κ × β)) (k : κ) :
    (alistFind m k).isSome ↔ k ∈ m.map (·.1) := by
  induction m with
  | nil => simp [alistFind_nil]
  | cons kv rest ih =>
    rw [alistFind_cons]
    by_cases h : kv.1 = k
    · simp [h]
    · have h2 : ¬ k = kv.1 := fun he => h he.symm
      simp [h, h2, ih]

theorem alistFind_mem {κ β : Type} [DecidableEq κ] (m : List (κ × β)) (k : κ) (v : β)
    (h : alistFind m k = some v) : (k, v) ∈ m := by
  induction m with
  | nil => simp [alistFind_nil] at h
  | cons kv rest ih =>
    rw [alistFind_cons] at h
    by_cases hk : kv.1 = k
    · rw [if_pos hk] at h
      cases h
      obtain ⟨k1, v1⟩ := kv
      cases hk
      exact List.mem_cons_self _ _
    · rw [if_neg hk] at h
      exact List.mem_cons_of_mem _ (ih h)

theorem mem_alistFind_of_nodup {κ β : Type} [DecidableEq κ] (m : List (κ × β))
    (hnd : (m.map (·.1)).Nodup) (k : κ) (v : β) (h : (k, v) ∈ m) :
    alistFind m k = some v := by
  induction m with
  | nil => simp at h
  | cons kv rest ih =>
    simp only [List.map_cons, List.nodup_cons] at hnd
    rw [alistFind_cons]
    rcases List.mem_cons.mp h with he | hm
    · rw [← he]
      simp
    · have hk : kv.1 ≠ k := by
        intro hkk
        exact hnd.1 (by
          rw [hkk]
          exact List.mem_map.mpr ⟨(k, v), hm, rfl⟩)
      rw [if_neg hk]
      exact ih hnd.2 hm

theorem mem_filterKeys {β : Type} (P : β → Bool) (m : List (Json × β))
    (hnd : (m.map (·.1)).Nodup) (id : Json) :
    id ∈ (m.filter (fun kv => P kv.2)).map (·.1) ↔
      ∃ e, alistFind m id = some e ∧ P e := by
  constructor
  · intro hm
    obtain ⟨kv, hkv, hfst⟩ := List.mem_map.mp hm
    obtain ⟨hmem, hP⟩ := List.mem_filter.mp hkv
    refine ⟨kv.2, ?_, hP⟩
    rw [← hfst]
    exact mem_alistFind_of_nodup m hnd kv.1 kv.2 (by cases kv; exact hmem)
  · rintro ⟨e, hfind, hP⟩
    have := alistFind_mem m id e hfind
    exact List.mem_map.mpr ⟨(id, e), List.mem_filter.mpr ⟨this, hP⟩, rfl⟩

theorem truthyIds_of_all_truthy (B : List Activity)
    (hBt : ∀ a ∈ B, a.activity_id.truthy) :
    truthyIds B = B.map (·.activity_id) := by
  unfold truthyIds
  rw [List.filter_eq_self.mpr hBt]

theorem loadActivitiesNoSort_append (h : PyHash) (fs1 fs2 : List SrcFile)
    (s1 s2 : List Activity) (h1 : loadActivitiesNoSort h fs1 = .ok s1)
    (h2 : loadActivitiesNoSort h fs2 = .ok s2) :
    loadActivitiesNoSort h (fs1 ++ fs2) = .ok (s1 ++ s2) := by
  induction fs1 generalizing s1 with
  | nil =>
    simp only [loadActivitiesNoSort] at h1
    cases h1
    simpa using h2
  | cons f rest ih =>
    simp only [loadActivitiesNoSort, List.cons_append] at h1 ⊢
    cases hf : loadFile h f with
    | error e =>
      simp only [hf] at h1 ⊢
      by_cases hc : caughtFile e
      · rw [if_pos hc] at h1 ⊢
        exact ih s1 h1
      · rw [if_neg hc] at h1
        cases h1
    | ok as =>
      simp only [hf] at h1 ⊢
      cases hrest : loadActivitiesNoSort h rest with
      | error e => rw [hrest] at h1; simp [Except.map] at h1
      | ok bs =>
        rw [hrest] at h1
        simp only [Except.map] at h1
        cases h1
        rw [show rest.append fs2 = rest ++ fs2 from rfl, ih bs hrest]
        simp [Except.map, List.append_assoc]

theorem buildFold_view (st pf fp : String) :
    ∀ (as : List Activity) (acc : BuildAcc) (ln : Nat) (id : Json),
      Option.map entryView (alistFind (buildFold st pf fp acc ln as).m id)
        = match lastIndexedWith id as with
          | some a => some (a.activity_type, a.timestamp.isoformat)
          | none => Option.map entryView (alistFind acc.m id) := by
  intro as
  induction as with
  | nil => intro acc ln id; simp [buildFold, lastIndexedWith]
  | cons a rest ih =>
    intro acc ln id
    by_cases ht : a.activity_id.truthy
    · have hstep : buildFold st pf fp acc ln (a :: rest)
          = buildFold st pf fp
            ⟨buildFold.dictInsertIdx acc.m a.activity_id
                ⟨a.activity_id, st, .str pf, a.activity_type, a.timestamp.isoformat, fp, ln⟩,
              bumpCount acc.byPlat pf,
              bumpCount acc.byYear (yearStr a.timestamp),
              appendEntry acc.byMonth (monthStr a.timestamp) a.activity_id,
              bumpCount acc.byType a.activity_type⟩ (ln + 1) rest := by
        simp [buildFold, ht]
      rw [hstep, ih _ (ln + 1) id]
      simp only [lastIndexedWith]
      cases lastIndexedWith id rest with
      | some b => rfl
      | none =>
        simp only [buildFold.dictInsertIdx, alistFind_upd, ht, Bool.true_and]
        by_cases hid : a.activity_id = id
        · subst hid
          simp [entryView]
        · have h2 : ¬ id = a.activity_id := fun he => hid he.symm
          simp [hid, h2]
    · have hstep : buildFold st pf fp acc ln (a :: rest)
          = buildFold st pf fp acc (ln + 1) rest := by
        simp [buildFold, ht]
      rw [hstep, ih acc (ln + 1) id]
      simp only [lastIndexedWith]
      cases lastIndexedWith id rest with
      | some b => rfl
      | none => simp [ht]

theorem buildGo_view (h : PyHash) :
    ∀ (files : List LogFile) (acc res : BuildAcc),
      buildGo h acc files = .ok res →
      ∃ as, loadActivitiesNoSort h (files.map (·.file)) = .ok as ∧
        ∀ id, Option.map entryView (alistFind res.m id)
          = match lastIndexedWith id as with
            | some a => some (a.activity_type, a.timestamp.isoformat)
            | none => Option.map entryView (alistFind acc.m id) := by
  intro files
  induction files with
  | nil =>
    intro acc res hok
    simp only [buildGo] at hok
    cases hok
    exact ⟨[], rfl, fun id => by simp [lastIndexedWith]⟩
  | cons f rest ih =>
    intro acc res hok
    simp only [buildGo] at hok
    cases hf : loadFile h f.file with
    | error e => rw [hf] at hok; cases hok
    | ok as0 =>
      rw [hf] at hok
      simp only [bind, Except.bind] at hok
      obtain ⟨as1, hload, hview⟩ := ih _ res hok
      refine ⟨as0 ++ as1, ?_, fun id => ?_⟩
      · simp only [List.map_cons, loadActivitiesNoSort, hf, hload, Except.map]
      · rw [hview id, lastIndexedWith_append]
        cases lastIndexedWith id as1 with
        | some b => rfl
        | none =>
          simp only []
          rw [buildFold_view (determineSourceType f.parts) (determinePlatform f.parts)
            (joinParts f.parts) as0 acc 1 id]

/-- The placeholder entry `update_incremental` writes for a new activity. -/
def incrIdx (a : Activity) : ActivityIndex :=
  ⟨a.activity_id, (if a.activity_type = Json.str "create" then "artifact" else "source"),
    a.platform, a.activity_type, a.timestamp.isoformat, "", 0⟩

theorem incrStep_new (m0 : Manifest) (n0 : Nat) (a : Activity)
    (ht : a.activity_id.truthy) (hn : alistFind m0.activities a.activity_id = none) :
    incrStep (m0, n0) a
      = ({ m0 with activities := alistUpd m0.activities a.activity_id (incrIdx a) },
          n0 + 1) := by
  simp [incrStep, ht, hn, incrIdx]

theorem incrFold_facts :
    ∀ (B : List Activity) (m0 : Manifest) (n0 : Nat),
      (∀ a ∈ B, a.activity_id.truthy) →
      (∀ a ∈ B, alistFind m0.activities a.activity_id = none) →
      ((B.map (·.activity_id)).Nodup) →
      (B.foldl incrStep (m0, n0)).2 = n0 + B.length ∧
      (∀ x, x ∈ (B.foldl incrStep (m0, n0)).1.activities.map (·.1) ↔
        x ∈ m0.activities.map (·.1) ∨ x ∈ B.map (·.activity_id)) ∧
      ((m0.activities.map (·.1)).Nodup →
        ((B.foldl incrStep (m0, n0)).1.activities.map (·.1)).Nodup) ∧
      (∀ id, Option.map entryView (alistFind (B.foldl incrStep (m0, n0)).1.activities id)
        = match lastIndexedWith id B with
          | some a => some (a.activity_type, a.timestamp.isoformat)
          | none => Option.map entryView (alistFind m0.activities id)) := by
  intro B
  induction B with
  | nil =>
    intro m0 n0 _ _ _
    exact ⟨by simp, fun x => by simp, id, fun id => by simp [lastIndexedWith]⟩
  | cons a B' ih =>
    intro m0 n0 hBt hnew hnd
    have ht := hBt a (by simp)
    have hn := hnew a (by simp)
    have hstep := incrStep_new m0 n0 a ht hn
    have hhd : a.activity_id ∉ B'.map (·.activity_id) := by
      have := hnd
      simp only [List.map_cons, List.nodup_cons] at this
      exact this.1
    have hBt' : ∀ b ∈ B', b.activity_id.truthy := fun b hb => hBt b (by simp [hb])
    have hnd' : (B'.map (·.activity_id)).Nodup := by
      have := hnd
      simp only [List.map_cons, List.nodup_cons] at this
      exact this.2
    have hne : ∀ b ∈ B', b.activity_id ≠ a.activity_id := by
      intro b hb he
      exact hhd (he ▸ List.mem_map.mpr ⟨b, hb, rfl⟩)
    have hnew' : ∀ b ∈ B',
        alistFind (alistUpd m0.activities a.activity_id (incrIdx a)) b.activity_id
          = none := by
      intro b hb
      rw [alistFind_upd, if_neg (hne b hb)]
      exact hnew b (by simp [hb])
    obtain ⟨hcnt, hmem, hnd2, hview⟩ := ih
      ({ m0 with activities := alistUpd m0.activities a.activity_id (incrIdx a) })
      (n0 + 1) hBt' hnew' hnd'
    rw [List.foldl_cons, hstep]
    refine ⟨by rw [hcnt]; simp; omega, fun x => ?_, fun h0 => ?_, fun id => ?_⟩
    · rw [hmem x]
      simp only [alistUpd_keys_mem, List.map_cons, List.mem_cons]
      tauto
    · exact hnd2 (alistUpd_keys_nodup _ _ _ h0)
    · rw [hview id]
      simp only [lastIndexedWith]
      cases lastIndexedWith id B' with
      | some b => rfl
      | none =>
        simp only [alistFind_upd, ht, Bool.true_and]
        by_cases hid : a.activity_id = id
        · subst hid
          simp [entryView, incrIdx]
        · have h2 : ¬ id = a.activity_id := fun he => hid he.symm
          simp [hid, h2]

theorem dateGo_ok_forall (sd ed : Option DateTime) :
    ∀ (m : List (Json × ActivityIndex)) (l : List Json),
      getActivitiesByDate.go sd ed m = .ok l →
      ∀ kv ∈ m, ∃ b, tsInRange kv.2.timestamp sd ed = .ok b := by
  intro m
  induction m with
  | nil => intro l _ kv hkv; simp at hkv
  | cons kv0 rest ih =>
    intro l hok kv hkv
    simp only [getActivitiesByDate.go] at hok
    cases hr : tsInRange kv0.2.timestamp sd ed with
    | error e => rw [hr] at hok; cases hok
    | ok b =>
      rw [hr] at hok
      simp only [bind, Except.bind] at hok
      cases hrest : getActivitiesByDate.go sd ed rest with
      | error e => rw [hrest] at hok; cases hok
      | ok tl =>
        rcases List.mem_cons.mp hkv with he | hm
        · exact ⟨b, he ▸ hr⟩
        · exact ih tl hrest kv hm

theorem dateGo_total (sd ed : Option DateTime) :
    ∀ (m : List (Json × ActivityIndex)),
      (∀ kv ∈ m, ∃ b, tsInRange kv.2.timestamp sd ed = .ok b) →
      ∃ l, getActivitiesByDate.go sd ed m = .ok l := by
  intro m
  induction m with
  | nil => exact fun _ => ⟨[], rfl⟩
  | cons kv0 rest ih =>
    intro hall
    obtain ⟨b, hb⟩ := hall kv0 (by simp)
    obtain ⟨tl, htl⟩ := ih (fun kv hkv => hall kv (by simp [hkv]))
    refine ⟨if b then kv0.1 :: tl else tl, ?_⟩
    simp [getActivitiesByDate.go, hb, htl, bind, Except.bind, pure, Except.pure]

theorem dateGo_mem (sd ed : Option DateTime) :
    ∀ (m : List (Json × ActivityIndex)) (l : List Json),
      getActivitiesByDate.go sd ed m = .ok l →
      (m.map (·.1)).Nodup →
      ∀ id, (id ∈ l ↔ ∃ e, alistFind m id = some e ∧
        tsInRange e.timestamp sd ed = .ok true) := by
  intro m
  induction m with
  | nil =>
    intro l hok _ id
    simp only [getActivitiesByDate.go] at hok
    cases hok
    simp [alistFind_nil]
  | cons kv0 rest ih =>
    intro l hok hnd id
    simp only [List.map_cons, List.nodup_cons] at hnd
    simp only [getActivitiesByDate.go] at hok
    cases hr : tsInRange kv0.2.timestamp sd ed with
    | error e => rw [hr] at hok; cases hok
    | ok b =>
      rw [hr] at hok
      simp only [bind, Except.bind] at hok
      cases hrest : getActivitiesByDate.go sd ed rest with
      | error e => rw [hrest] at hok; cases hok
      | ok tl =>
        rw [hrest] at hok
        simp only [pure, Except.pure] at hok
        cases hok
        have hmem := ih tl hrest hnd.2 id
        rw [alistFind_cons]
        by_cases hk : kv0.1 = id
        · subst hk
          have hrnone : ∀ e, alistFind rest kv0.1 ≠ some e := by
            intro e he
            exact hnd.1 ((alistFind_isSome_mem rest kv0.1).mp (by simp [he]))
          cases b with
          | true =>
            simp only [if_pos rfl, if_true, List.mem_cons]
            constructor
            · intro _
              exact ⟨kv0.2, rfl, hr⟩
            · intro _
              simp
          | false =>
            simp only [if_pos rfl, if_false, Bool.false_eq_true]
            rw [hmem]
            constructor
            · rintro ⟨e, he, _⟩
              exact absurd he (hrnone e)
            · rintro ⟨e, he, hk2⟩
              cases he
              rw [hr] at hk2
              cases hk2

        · have h2 : id ≠ kv0.1 := fun he => hk he.symm
          rw [if_neg hk]
          cases b with
          | true =>
            simp only [if_true, List.mem_cons]
            rw [hmem]
            constructor
            · rintro (he | h)
              · exact absurd he.symm hk
              · exact h
            · intro h
              right; exact h
          | false =>
            simp only [Bool.false_eq_true, if_false]
            exact hmem

theorem alistFind_view_pred (m1 m2 : List (Json × ActivityIndex)) (id : Json)
    (hv : Option.map entryView (alistFind m1 id) = Option.map entryView (alistFind m2 id))
    (P : Json × String → Prop) :
    (∃ e, alistFind m1 id = some e ∧ P (entryView e)) →
    (∃ e, alistFind m2 id = some e ∧ P (entryView e)) := by
  rintro ⟨e, he, hp⟩
  rw [he] at hv
  cases h2 : alistFind m2 id with
  | none => rw [h2] at hv; cases hv
  | some e2 =>
    rw [h2] at hv
    simp only [Option.map_some'] at hv
    have hve : entryView e = entryView e2 := Option.some.inj hv
    exact ⟨e2, rfl, hve ▸ hp⟩

/-- C4 amended: after an incremental update with a batch of genuinely new
activities (truthy, pairwise-distinct ids, none indexed yet) that equals the
stream of the freshly appended event-log files, the manifest agrees with a
full rebuild on the total count, on id-lookup presence, on type queries and
on date-range queries (as sets of ids).  Platform queries are exempt: the
incremental path leaves the per-platform shard files stale (see the
counterexample), and an id lookup returns a placeholder entry rather than
the rebuilt one. -/
theorem incremental_matches_rebuild_for_type_date_count
    (h : PyHash) (files1 extra : List LogFile) (B : List Activity)
    (now1 now2 now3 : String) (prior1 prior2 : IndexStore)
    (st1 st2 st1' : IndexStore) (added : Nat)
    (hb1 : ManifestManager.build h files1 now1 prior1 = .ok st1)
    (hb2 : ManifestManager.build h (files1 ++ extra) now2 prior2 = .ok st2)
    (hincr : ManifestManager.update_incremental st1 B now3 = (st1', added))
    (hbatch : loadActivitiesNoSort h (extra.map (·.file)) = .ok B)
    (hBt : ∀ a ∈ B, a.activity_id.truthy)
    (hBnew : ∀ a ∈ B, getActivityIndex st1 a.activity_id = none)
    (hBnd : (B.map (·.activity_id)).Nodup) :
    st1'.loadManifest.total_activities = st2.loadManifest.total_activities ∧
    (∀ id, (getActivityIndex st1' id).isSome ↔ (getActivityIndex st2 id).isSome) ∧
    (∀ t id, id ∈ getActivitiesByType st1' t ↔ id ∈ getActivitiesByType st2 t) ∧
    (∀ sd ed l1, getActivitiesByDate st1' sd ed = .ok l1 →
      ∃ l2, getActivitiesByDate st2 sd ed = .ok l2 ∧ ∀ id, (id ∈ l1 ↔ id ∈ l2)) := by
  -- Unpack the two builds.
  simp only [ManifestManager.build] at hb1 hb2
  cases hg1 : buildGo h BuildAcc.empty files1 with
  | error e => rw [hg1] at hb1; cases hb1
  | ok acc1 =>
  rw [hg1] at hb1
  simp only [bind, Except.bind, pure, Except.pure] at hb1
  cases hb1
  cases hg2 : buildGo h BuildAcc.empty (files1 ++ extra) with
  | error e => rw [hg2] at hb2; cases hb2
  | ok acc2 =>
  rw [hg2] at hb2
  simp only [bind, Except.bind, pure, Except.pure] at hb2
  cases hb2
  -- The two scan streams.
  obtain ⟨s1, hs1, hmem1, hnod1⟩ := buildGo_keys h files1 _ _ hg1
  obtain ⟨s1v, hs1v, hview1⟩ := buildGo_view h files1 _ _ hg1
  rw [hs1] at hs1v
  injection hs1v with hs1v
  subst hs1v
  obtain ⟨s12, hs12, hmem2, hnod2⟩ := buildGo_keys h (files1 ++ extra) _ _ hg2
  obtain ⟨s12v, hs12v, hview2⟩ := buildGo_view h (files1 ++ extra) _ _ hg2
  rw [hs12] at hs12v
  injection hs12v with hs12v
  subst hs12v
  have happ := loadActivitiesNoSort_append h (files1.map (·.file)) (extra.map (·.file))
    s1 B hs1 hbatch
  rw [← List.map_append] at happ
  rw [happ] at hs12
  injection hs12 with hs12
  subst hs12
  -- The built master manifest of the first build.
  set m1 : Manifest := ⟨"2.0", some now1, acc1.m.length, acc1.m, acc1.byPlat,
    acc1.byYear, acc1.byType⟩ with hm1def
  -- Transfer the "genuinely new" hypothesis to the master map.
  have hBnew' : ∀ a ∈ B, alistFind m1.activities a.activity_id = none := by
    intro a ha
    have := hBnew a ha
    simpa [getActivityIndex, IndexStore.loadManifest, Option.getD] using this
  obtain ⟨hcnt, hkmem, hknd, hkview⟩ := incrFold_facts B m1 0 hBt hBnew' hBnd
  -- The incrementally updated store's master map and total.
  have hincr' := hincr
  simp only [ManifestManager.update_incremental, IndexStore.loadManifest,
    Option.getD] at hincr'
  have hA1 : st1'.loadManifest.activities = (B.foldl incrStep (m1, 0)).1.activities ∧
      st1'.loadManifest.total_activities
        = (B.foldl incrStep (m1, 0)).1.activities.length := by
    by_cases hnil : B = []
    · subst hnil
      simp only [List.foldl_nil] at hincr' ⊢
      rw [if_neg (by simp)] at hincr'
      have hst : st1' = _ := (congrArg Prod.fst hincr').symm
      rw [hst]
      exact ⟨rfl, rfl⟩
    · have hpos : (B.foldl incrStep (m1, 0)).2 > 0 := by
        rw [hcnt]
        have := List.length_pos.mpr hnil
        omega
      rw [if_pos hpos] at hincr'
      have hst : st1' = _ := (congrArg Prod.fst hincr').symm
      rw [hst]
      exact ⟨rfl, rfl⟩
  -- Per-id agreement of the type/timestamp projection.
  have hVempty : ∀ id : Json, Option.map entryView (alistFind BuildAcc.empty.m id)
      = none := by
    intro id
    simp [BuildAcc.empty, alistFind_nil]
  have hVeq : ∀ id, Option.map entryView (alistFind st1'.loadManifest.activities id)
      = Option.map entryView (alistFind acc2.m id) := by
    intro id
    rw [hA1.1, hkview id, hview2 id, lastIndexedWith_append]
    cases lastIndexedWith id B with
    | some b => rfl
    | none =>
      simp only []
      rw [hview1 id, hVempty id]
  -- Key-set agreement and dedup.
  have hKeys1 : ∀ x, x ∈ m1.activities.map (·.1) ↔ x ∈ truthyIds s1 := by
    intro x
    have := hmem1 x
    simpa [BuildAcc.empty] using this
  have hKeq : ∀ x, x ∈ st1'.loadManifest.activities.map (·.1) ↔
      x ∈ acc2.m.map (·.1) := by
    intro x
    rw [hA1.1, hkmem x]
    have h2 := hmem2 x
    simp only [BuildAcc.empty, List.not_mem_nil, false_or] at h2
    rw [h2, truthyIds_append, truthyIds_of_all_truthy B hBt, hKeys1 x]
    simp [List.mem_append]
  have hN1 : (st1'.loadManifest.activities.map (·.1)).Nodup := by
    rw [hA1.1]
    exact hknd (hnod1 (by simp [BuildAcc.empty]))
  have hN2 : (acc2.m.map (·.1)).Nodup := hnod2 (by simp [BuildAcc.empty])
  refine ⟨?_, ?_, ?_, ?_⟩
  · -- total counts
    rw [hA1.2]
    show _ = acc2.m.length
    have e1 : (B.foldl incrStep (m1, 0)).1.activities.length
        = ((B.foldl incrStep (m1, 0)).1.activities.map (·.1)).length := by simp
    have e2 : acc2.m.length = (acc2.m.map (·.1)).length := by simp
    rw [e1, e2]
    refine length_eq_of_nodup_same_mem _ _ ?_ hN2 ?_
    · rw [← hA1.1]; exact hN1
    · intro x
      have := hKeq x
      rw [hA1.1] at this
      exact this
  · -- id-lookup presence
    intro id
    have hv := hVeq id
    simp only [getActivityIndex]
    show (alistFind st1'.loadManifest.activities id).isSome
      ↔ (alistFind acc2.m id).isSome
    constructor
    · intro hs
      have h1 : (Option.map entryView
          (alistFind st1'.loadManifest.activities id)).isSome := by
        simpa using hs
      rw [hv] at h1
      simpa using h1
    · intro hs
      have h1 : (Option.map entryView (alistFind acc2.m id)).isSome := by
        simpa using hs
      rw [← hv] at h1
      simpa using h1
  · -- type queries
    intro t id
    simp only [getActivitiesByType]
    show id ∈ (st1'.loadManifest.activities.filter
        (fun kv => kv.2.activity_type = Json.str t)).map (·.1)
      ↔ id ∈ (acc2.m.filter
        (fun kv => kv.2.activity_type = Json.str t)).map (·.1)
    rw [mem_filterKeys (fun e => decide (e.activity_type = Json.str t)) _ hN1 id,
      mem_filterKeys (fun e => decide (e.activity_type = Json.str t)) _ hN2 id]
    constructor
    · rintro ⟨e, he, hp⟩
      exact alistFind_view_pred _ _ id (hVeq id)
        (fun v => decide (v.1 = Json.str t) = true) ⟨e, he, hp⟩
    · rintro ⟨e, he, hp⟩
      exact alistFind_view_pred _ _ id (hVeq id).symm
        (fun v => decide (v.1 = Json.str t) = true) ⟨e, he, hp⟩
  · -- date-range queries
    intro sd ed l1 hok1
    simp only [getActivitiesByDate] at hok1 ⊢
    have hok1' : getActivitiesByDate.go sd ed st1'.loadManifest.activities
        = .ok l1 := hok1
    have hall1 := dateGo_ok_forall sd ed _ l1 hok1'
    have hall2 : ∀ kv ∈ acc2.m, ∃ b, tsInRange kv.2.timestamp sd ed = .ok b := by
      intro kv hkv
      have hf2 : alistFind acc2.m kv.1 = some kv.2 := by
        apply mem_alistFind_of_nodup _ hN2
        cases kv; exact hkv
      have hv := (hVeq kv.1).symm
      rw [hf2] at hv
      cases hf1 : alistFind st1'.loadManifest.activities kv.1 with
      | none => rw [hf1] at hv; cases hv
      | some e1 =>
        rw [hf1] at hv
        simp only [Option.map_some'] at hv
        have he1 : (kv.1, e1) ∈ st1'.loadManifest.activities := alistFind_mem _ _ _ hf1
        obtain ⟨b, hb⟩ := hall1 (kv.1, e1) he1
        refine ⟨b, ?_⟩
        have hts : kv.2.timestamp = e1.timestamp := by
          have := congrArg Prod.snd ((Option.some.injEq _ _).mp hv)
          simpa [entryView] using this
        rw [hts]
        exact hb
    obtain ⟨l2, hl2⟩ := dateGo_total sd ed acc2.m hall2
    refine ⟨l2, hl2, fun id => ?_⟩
    rw [dateGo_mem sd ed _ l1 hok1' hN1 id, dateGo_mem sd ed _ l2 hl2 hN2 id]
    constructor
    · rintro ⟨e, he, hp⟩
      exact alistFind_view_pred _ _ id (hVeq id)
        (fun v => tsInRange v.2 sd ed = .ok true) ⟨e, he, hp⟩
    · rintro ⟨e, he, hp⟩
      exact alistFind_view_pred _ _ id (hVeq id).symm
        (fun v => tsInRange v.2 sd ed = .ok true) ⟨e, he, hp⟩

def extraC4 : List LogFile :=
  [⟨["artifacts", "twitter", "tweets2.jsonl"], .jsonl [.val recT2]⟩]

def stC4a : IndexStore :=
  (ManifestManager.build h0 filesC4a "d1" IndexStore.empty).toOption.get (by rfl)

def stC4b : IndexStore :=
  (ManifestManager.build h0 (filesC4a ++ extraC4) "d2" stC4a).toOption.get (by rfl)

def stC4incr : IndexStore × Nat :=
  ManifestManager.update_incremental stC4a [actT2] "d3"

/-- Witness for the amended C4: one original twitter activity, one genuinely
new one appended in a fresh file; the incremental state and the rebuilt
state agree on the total count. -/
theorem incremental_matches_rebuild_witness :
    ManifestManager.build h0 filesC4a "d1" IndexStore.empty = .ok stC4a ∧
    ManifestManager.build h0 (filesC4a ++ extraC4) "d2" stC4a = .ok stC4b ∧
    loadActivitiesNoSort h0 (extraC4.map (·.file)) = .ok [actT2] ∧
    stC4incr.1.loadManifest.total_activities = stC4b.loadManifest.total_activities :=
  ⟨by rfl, by rfl, by rfl,
   (incremental_matches_rebuild_for_type_date_count h0 filesC4a extraC4 [actT2]
      "d1" "d2" "d3" IndexStore.empty stC4a stC4a stC4b stC4incr.1 stC4incr.2
      (by rfl) (by rfl) (by rfl) (by rfl) (by decide) (by decide) (by decide)).1⟩

/-!
### Claim C6: archive-and-replace and the enhancement timeline
-/

/-- The `_source` tag of a timeline entry. -/
def sourceTagOf (e : Json) : Option Json :=
  match e with
  | .obj kvs => alistGet kvs "_source"
  | _ => none

def recOld : Json :=
  .obj [("activity_id", .str "a"), ("computed_at", .str "2024-01-01T00:00:00"),
        ("algorithm_version", .str "1.0"), ("quality_score", .num 1)]

def enhC6 : EnhState := ⟨some [.val recOld], []⟩

def recOldTagged : Json :=
  .obj [("activity_id", .str "a"), ("computed_at", .str "2024-01-01T00:00:00"),
        ("algorithm_version", .str "1.0"), ("quality_score", .num 1),
        ("_source", .str "2024-02-02_v1.0_algorithm_update.jsonl")]

/-- C6 fails as stated: nothing forces the replacement batch to re-score
every id in the old latest file.  Replacing a non-empty latest with a batch
that lacks id `"a"` leaves the timeline for `"a"` with only the archived
(history-tagged) record — no entry is tagged `latest`. -/
theorem timeline_after_replace_missing_latest_tag :
    saveWithHistory [] "2024-02-02" "algorithm_update" enhC6
        = .ok ⟨some [], [("2024-02-02_v1.0_algorithm_update.jsonl", [.val recOld])]⟩ ∧
    getEnhancementTimeline
        ⟨some [], [("2024-02-02_v1.0_algorithm_update.jsonl", [.val recOld])]⟩ "a"
        = .ok [recOldTagged] ∧
    (∀ e ∈ [recOldTagged], sourceTagOf e ≠ some (Json.str "latest")) := by
  refine ⟨by rfl, by rfl, by decide⟩

theorem timelineCollect_go_mem (tag aid : String) :
    ∀ (js : List Json) (l : List Json), timelineCollect.go tag aid js = .ok l →
      ∀ kvs, Json.obj kvs ∈ js → alistGet kvs "activity_id" = some (.str aid) →
      tagSource (.obj kvs) tag ∈ l := by
  intro js
  induction js with
  | nil => intro l _ kvs hm; simp at hm
  | cons j rest ih =>
    intro l hok kvs hm hid
    simp only [timelineCollect.go] at hok
    cases hv : j.get "activity_id" with
    | error e => rw [hv] at hok; cases hok
    | ok v =>
      rw [hv] at hok
      simp only [bind, Except.bind] at hok
      cases hrest : timelineCollect.go tag aid rest with
      | error e => rw [hrest] at hok; cases hok
      | ok tl0 =>
        rw [hrest] at hok
        simp only [pure, Except.pure] at hok
        cases hok
        rcases List.mem_cons.mp hm with he | hin
        · subst he
          have hv2 : v = Json.str aid := by
            simp only [Json.get, Json.getD, hid] at hv
            exact (Except.ok.inj hv).symm
          simp [hv2]
        · have := ih tl0 hrest kvs hin hid
          by_cases hc : v = Json.str aid <;> simp [hc, this]

theorem timelineCollect_mem (content : List RawLine) (tag aid : String) (l : List Json)
    (hok : timelineCollect content tag aid = .ok l) (kvs : List (String × Json))
    (hmem : RawLine.val (.obj kvs) ∈ content)
    (hid : alistGet kvs "activity_id" = some (.str aid)) :
    tagSource (.obj kvs) tag ∈ l := by
  have hraw : Json.obj kvs ∈ rawRecords content :=
    List.mem_filterMap.mpr ⟨.val (.obj kvs), hmem, rfl⟩
  exact timelineCollect_go_mem tag aid (rawRecords content) l hok kvs hraw hid

theorem histGo_mem (aid : String) :
    ∀ (files : List (String × List RawLine)) (l : List Json),
      getEnhancementTimeline.histGo aid files = .ok l →
      ∀ n c, (n, c) ∈ files →
        ∃ hits, timelineCollect c n aid = .ok hits ∧ ∀ x ∈ hits, x ∈ l := by
  intro files
  induction files with
  | nil => intro l _ n c hm; simp at hm
  | cons nc rest ih =>
    intro l hok n c hm
    obtain ⟨n0, c0⟩ := nc
    simp only [getEnhancementTimeline.histGo] at hok
    cases hh : timelineCollect c0 n0 aid with
    | error e => rw [hh] at hok; cases hok
    | ok hits0 =>
      rw [hh] at hok
      simp only [bind, Except.bind] at hok
      cases hrest : getEnhancementTimeline.histGo aid rest with
      | error e => rw [hrest] at hok; cases hok
      | ok tl0 =>
        rw [hrest] at hok
        simp only [pure, Except.pure] at hok
        cases hok
        rcases List.mem_cons.mp hm with he | hin
        · injection he with he1 he2
          subst he1
          subst he2
          exact ⟨hits0, hh, fun x hx => List.mem_append_left _ hx⟩
        · obtain ⟨hits, hh2, hsub⟩ := ih tl0 hrest n c hin
          exact ⟨hits, hh2, fun x hx => List.mem_append_right _ (hsub x hx)⟩

/-- C6 amended: after `save_with_history`, the timeline for an id present in
the old latest file contains the pre-replace record tagged with the history
file it was archived to; it additionally contains the post-replace record
tagged `latest` when the replacement batch holds a record for that id (which
the claim implicitly presupposed but the code does not enforce). -/
theorem timeline_contains_pre_and_post
    (st st' : EnhState) (records : List Json) (date reason aid : String)
    (content : List RawLine) (tl : List Json)
    (hlat : st.latest = some content)
    (kvsOld : List (String × Json))
    (holdmem : RawLine.val (.obj kvsOld) ∈ content)
    (holdid : alistGet kvsOld "activity_id" = some (.str aid))
    (kvsNew : List (String × Json))
    (hnewmem : Json.obj kvsNew ∈ records)
    (hnewid : alistGet kvsNew "activity_id" = some (.str aid))
    (hsave : saveWithHistory records date reason st = .ok st')
    (htl : getEnhancementTimeline st' aid = .ok tl) :
    tagSource (.obj kvsNew) "latest" ∈ tl ∧
    ∃ name, name ∈ st'.history.map (·.1) ∧ tagSource (.obj kvsOld) name ∈ tl := by
  simp only [saveWithHistory, hlat] at hsave
  cases hfl : firstLineVersion content with
  | error e => rw [hfl] at hsave; cases hsave
  | ok v =>
    rw [hfl] at hsave
    simp only [bind, Except.bind, pure, Except.pure] at hsave
    cases hsave
    set archName := archiveName (st.history.map (·.1)) date (pyStr v) reason with harch
    simp only [getEnhancementTimeline] at htl
    cases hlp : timelineCollect (records.map .val) "latest" aid with
    | error e => rw [hlp] at htl; cases htl
    | ok lp =>
      rw [hlp] at htl
      simp only [bind, Except.bind] at htl
      cases hhp : getEnhancementTimeline.histGo aid
          (listHistory ⟨some (records.map .val), st.history ++ [(archName, content)]⟩) with
      | error e => rw [hhp] at htl; cases htl
      | ok hp =>
        rw [hhp] at htl
        simp only [pure, Except.pure] at htl
        cases htl
        have hperm : ∀ x : Json,
            x ∈ (lp ++ hp).insertionSort (fun a b => computedAtKey b ≤ computedAtKey a)
              ↔ x ∈ lp ++ hp := by
          intro x
          exact (List.perm_insertionSort _ _).mem_iff
        constructor
        · rw [hperm]
          refine List.mem_append_left _ ?_
          exact timelineCollect_mem (records.map .val) "latest" aid lp hlp kvsNew
            (List.mem_map.mpr ⟨.obj kvsNew, hnewmem, rfl⟩) hnewid
        · refine ⟨archName, by simp, ?_⟩
          rw [hperm]
          refine List.mem_append_right _ ?_
          have hmemhist : (archName, content) ∈ listHistory
              ⟨some (records.map .val), st.history ++ [(archName, content)]⟩ := by
            have : (archName, content) ∈ st.history ++ [(archName, content)] := by simp
            exact (List.perm_insertionSort _ _).mem_iff.mpr this
          obtain ⟨hits, hh, hsub⟩ := histGo_mem aid _ hp hhp archName content hmemhist
          exact hsub _ (timelineCollect_mem content archName aid hits hh kvsOld
            holdmem holdid)

def recNewC6 : Json :=
  .obj [("activity_id", .str "a"), ("computed_at", .str "2024-03-01T00:00:00"),
        ("algorithm_version", .str "1.1"), ("quality_score", .num 1)]

/-- Witness for the amended C6: re-scoring id `"a"` at version 1.1 over the
1.0 latest file leaves both timeline entries visible. -/
theorem timeline_contains_pre_and_post_witness :
    ∃ st' tl, saveWithHistory [recNewC6] "2024-02-02" "algorithm_update" enhC6
        = .ok st' ∧
      getEnhancementTimeline st' "a" = .ok tl ∧
      (tagSource (.obj [("activity_id", .str "a"),
          ("computed_at", .str "2024-03-01T00:00:00"),
          ("algorithm_version", .str "1.1"), ("quality_score", .num 1)]) "latest" ∈ tl ∧
        ∃ name, name ∈ st'.history.map (·.1) ∧
          tagSource (.obj [("activity_id", .str "a"),
            ("computed_at", .str "2024-01-01T00:00:00"),
            ("algorithm_version", .str "1.0"), ("quality_score", .num 1)]) name ∈ tl) := by
  refine ⟨⟨some [.val recNewC6],
      [("2024-02-02_v1.0_algorithm_update.jsonl", [.val recOld])]⟩, _, by rfl, rfl, ?_⟩
  exact timeline_contains_pre_and_post enhC6 _ [recNewC6] "2024-02-02"
    "algorithm_update" "a" [.val recOld] _ rfl _ (by decide) (by decide) _ (by decide)
    (by decide) (by rfl) (by rfl)

end MetaSPN
